import Mathlib

/-!
# RobotChallenge: a shallow embedding of `robot.h`, `robot.c` and `parse.c`

Conventions of the embedding.

* A C string is a `List Char`; the terminating NUL is the end of the list.
* `uint32_t` and `size_t` values are natural numbers; wrap-around is written
  out (`% 2 ^ 32`) at the operations that can overflow.
* `exit(EXIT_FAILURE)`, a failed `assert`, `abort()` and an access outside
  the `robots` array end the run; they are the constructors of `fault`.
* `stdout` is the list of characters written so far.
-/

namespace RobotChallenge

/-! ## robot.h -/

def MAX_ROBOT_COUNT : Nat := 16
def TABLE_WIDTH : Nat := 4
def TABLE_HEIGHT : Nat := 4

/-- The values of `int64_t` reached by arithmetic that wraps around. -/
def wrap_int64 (z : Int) : Int := (z + 2 ^ 63) % 2 ^ 64 - 2 ^ 63

/-- The macro `ABS(x) ((x) < 0 ? -(x) : (x))`, used at type `int64_t`. -/
def ABS (x : Int) : Int := if x < 0 then wrap_int64 (-x) else x

/-- The enumeration `enum direction`. -/
inductive direction where
  | DIR_NORTH
  | DIR_EAST
  | DIR_SOUTH
  | DIR_WEST
  deriving DecidableEq, Repr

open direction

/-- The integer value of an enumerator (`DIR_NORTH = 0`, then counting up). -/
def direction.val : direction → Nat
  | DIR_NORTH => 0
  | DIR_EAST => 1
  | DIR_SOUTH => 2
  | DIR_WEST => 3

/-- The enumerator of an integer value; the program only ever converts the
values `0..3`, larger values are sent to the last enumerator. -/
def direction.ofVal : Nat → direction
  | 0 => DIR_NORTH
  | 1 => DIR_EAST
  | 2 => DIR_SOUTH
  | _ => DIR_WEST

/-- The table `e_heading_str[] = {"NORTH", "EAST", "SOUTH", "WEST"}`. -/
def e_heading_str : List (List Char) :=
  ["NORTH".toList, "EAST".toList, "SOUTH".toList, "WEST".toList]

/-- The entry `e_heading_str[h]`. -/
def heading_str (h : direction) : List Char :=
  e_heading_str.getD h.val []

/-- The enumeration `enum cmd_type`. -/
inductive cmd_type where
  | CMD_PLACE
  | CMD_MOVE
  | CMD_LEFT
  | CMD_RIGHT
  | CMD_REPORT
  | CMD_SELECT
  | CMD_NONE
  deriving DecidableEq, Repr

/-- The struct `command_t`: the tag `type` and the operands of the union
`args` (`place.x`, `place.y`, `place.heading` and `select`). -/
structure command_t where
  type : cmd_type
  x : Nat := 0
  y : Nat := 0
  heading : direction := DIR_NORTH
  select : Nat := 0
  deriving DecidableEq, Repr

/-- The struct `robot`. -/
structure robot where
  x : Nat
  y : Nat
  heading : direction
  is_placed : Bool
  deriving DecidableEq, Repr

/-! ## robot.c -/

/-- The static variable `state`: the robot array, `active` and `selected`. -/
structure state_t where
  robots : Fin MAX_ROBOT_COUNT → robot
  active : Nat
  selected : Nat

/-- The zero-initialised `state` the program starts with. -/
def state0 : state_t :=
  { robots := fun _ => { x := 0, y := 0, heading := DIR_NORTH, is_placed := false },
    active := 0,
    selected := 0 }

/-- The ways a run ends early. -/
inductive fault where
  /-- The call `exit(EXIT_FAILURE)` of the parser. -/
  | exit_failure
  /-- An `assert` whose condition is false. -/
  | assert_fail
  /-- The call `abort()`. -/
  | abort
  /-- An access to `state.robots` at an index outside `0..MAX_ROBOT_COUNT-1`. -/
  | out_of_bounds
  deriving DecidableEq, Repr

/-- The text `printf("%u")` or `printf("%lu")` writes for a number. -/
def decimal (n : Nat) : List Char := Nat.toDigits 10 n

/-- The text of `printf("Robot %lu of %lu: %u,%u,%s\n", ...)`. -/
def report_text (selected active : Nat) (rb : robot) : List Char :=
  "Robot ".toList ++ decimal (selected + 1) ++ " of ".toList ++ decimal active
    ++ ": ".toList ++ decimal rb.x ++ [','] ++ decimal rb.y ++ [',']
    ++ heading_str rb.heading ++ ['\n']

/-- The `switch (rb->heading)` of `CMD_MOVE`, on `uint32_t` coordinates. -/
def move (rb : robot) : robot :=
  match rb.heading with
  | DIR_NORTH => { rb with y := (rb.y + (if rb.y = TABLE_HEIGHT then 0 else 1)) % 2 ^ 32 }
  | DIR_EAST => { rb with x := (rb.x + (if rb.x = TABLE_WIDTH then 0 else 1)) % 2 ^ 32 }
  | DIR_SOUTH => { rb with y := rb.y - (if rb.y = 0 then 0 else 1) }
  | DIR_WEST => { rb with x := rb.x - (if rb.x = 0 then 0 else 1) }

/-- The body of `CMD_LEFT`. -/
def turn_left (rb : robot) : robot :=
  if rb.heading = DIR_NORTH then { rb with heading := DIR_WEST }
  else { rb with heading := direction.ofVal (rb.heading.val - 1) }

/-- The body of `CMD_RIGHT`. -/
def turn_right (rb : robot) : robot :=
  if rb.heading.val ≥ DIR_WEST.val then { rb with heading := DIR_NORTH }
  else { rb with heading := direction.ofVal (rb.heading.val + 1) }

/-- One iteration of the loop of `exec`: the command `cmd` run on the state
`s` with `out` already written to `stdout`. -/
def exec_cmd (s : state_t) (out : List Char) (cmd : command_t) :
    Except fault (state_t × List Char) :=
  if hsel : s.selected < MAX_ROBOT_COUNT then
    let rb := s.robots ⟨s.selected, hsel⟩
    if !rb.is_placed && !(cmd.type = cmd_type.CMD_PLACE || cmd.type = cmd_type.CMD_SELECT) then
      .ok (s, out)
    else
      match cmd.type with
      | cmd_type.CMD_PLACE =>
        if s.active ≤ MAX_ROBOT_COUNT then
          if hact : s.active < MAX_ROBOT_COUNT then
            .ok ({ robots := Function.update s.robots ⟨s.active, hact⟩
                      { x := cmd.x, y := cmd.y, heading := cmd.heading, is_placed := true },
                   selected := s.active,
                   active := s.active + 1 }, out)
          else .error fault.out_of_bounds
        else .error fault.assert_fail
      | cmd_type.CMD_MOVE =>
        .ok ({ s with robots := Function.update s.robots ⟨s.selected, hsel⟩ (move rb) }, out)
      | cmd_type.CMD_LEFT =>
        .ok ({ s with robots := Function.update s.robots ⟨s.selected, hsel⟩ (turn_left rb) }, out)
      | cmd_type.CMD_RIGHT =>
        .ok ({ s with robots := Function.update s.robots ⟨s.selected, hsel⟩ (turn_right rb) }, out)
      | cmd_type.CMD_REPORT =>
        .ok (s, out ++ report_text s.selected s.active rb)
      | cmd_type.CMD_SELECT =>
        if cmd.select ≤ MAX_ROBOT_COUNT ∧ cmd.select ≠ 0 then
          if cmd.select > s.active then .ok (s, out)
          else if hidx : cmd.select - 1 < MAX_ROBOT_COUNT then
            if (s.robots ⟨cmd.select - 1, hidx⟩).is_placed = false then .ok (s, out)
            else .ok ({ s with selected := cmd.select - 1 }, out)
          else .error fault.out_of_bounds
        else .error fault.assert_fail
      | cmd_type.CMD_NONE => .error fault.abort
  else .error fault.out_of_bounds

/-- The result of a run of `exec`: the state and the output when the loop
stopped, and the fault that stopped it, if any. -/
structure exec_result where
  state : state_t
  out : List Char
  stopped : Option fault

/-- The loop of `exec` over the command buffer, from the state `s`. -/
def exec : List command_t → state_t → List Char → exec_result
  | [], s, out => { state := s, out := out, stopped := none }
  | cmd :: cmds, s, out =>
    match exec_cmd s out cmd with
    | .ok (s1, out1) => exec cmds s1 out1
    | .error f => { state := s, out := out, stopped := some f }

/-- The function `cmd_buf_push`: the command is stored after the ones already
in the buffer (the buffer grows as needed). -/
def cmd_buf_push (buf : List command_t) (cmd : command_t) : List command_t :=
  buf ++ [cmd]

/-! ## parse.c -/

/-- The NUL character that ends a C string. -/
def NUL : Char := Char.ofNat 0

/-- The C string that starts at the beginning of a buffer: the characters
before the first NUL. -/
def c_str (buf : List Char) : List Char := buf.takeWhile (fun c => c != NUL)

/-- The reading loop of `_getline`: the characters before the first `'\n'`,
`'\r'` or the end of the stream, and the stream after that terminator. -/
def read_line : List Char → List Char × List Char
  | [] => ([], [])
  | c :: rest =>
    if c = '\n' ∨ c = '\r' then ([], rest)
    else (c :: (read_line rest).1, (read_line rest).2)

/-- The function `_getline`: `none` is the return value `-1` (end of the
stream before any character); otherwise the buffer and the remaining stream. -/
def _getline (stream : List Char) : Option (List Char × List Char) :=
  match stream with
  | [] => none
  | _ :: _ => some (read_line stream)

/-- The function `skip_whitespace`. -/
def skip_whitespace (line : List Char) : List Char :=
  line.dropWhile (fun c => c = ' ' || c = '\t' || c = '\r' || c = '\n')

/-- The function `expect_char`: the rest of the line after the character `c`,
or `exit(EXIT_FAILURE)`. -/
def expect_char (c : Char) (line : List Char) : Except fault (List Char) :=
  match line with
  | [] => .error fault.exit_failure
  | d :: rest => if d ≠ c then .error fault.exit_failure else .ok rest

/-- The predicate `isspace` of the C library in the "C" locale. -/
def isspace (c : Char) : Bool :=
  c = ' ' || c = '\t' || c = '\n' || c = Char.ofNat 11 || c = Char.ofNat 12 || c = '\r'

/-- The predicate `isdigit` of the C library. -/
def isdigit (c : Char) : Bool := '0' ≤ c && c ≤ '9'

def LLONG_MAX : Int := 2 ^ 63 - 1
def LLONG_MIN : Int := -(2 ^ 63)

/-- The number a sequence of decimal digits denotes, most significant first. -/
def digits_value (ds : List Char) : Nat :=
  ds.foldl (fun acc c => 10 * acc + (c.toNat - '0'.toNat)) 0

/-- The function `strtoll(nptr, &end, 10)` of the C library: white space is
skipped, then an optional sign and the longest run of decimal digits are
converted. The result is the value, clamped to the range of `long long`, and
`end`; with no digit there is no conversion, the value is `0` and `end` is
`nptr`. -/
def strtoll (nptr : List Char) : Int × List Char :=
  let s := nptr.dropWhile isspace
  let neg := s.head? = some '-'
  let t := if s.head? = some '-' ∨ s.head? = some '+' then s.tail else s
  let ds := t.takeWhile isdigit
  if ds = [] then (0, nptr)
  else
    let v : Int := if neg then -(digits_value ds : Int) else (digits_value ds : Int)
    (max LLONG_MIN (min LLONG_MAX v), t.dropWhile isdigit)

/-- The function `parse_number`: the magnitude of the number at the start of
the line, as a `uint64_t`, and the rest of the line. `end` points into the
line, so it equals `*line` exactly when nothing was consumed. -/
def parse_number (line : List Char) : Except fault (Nat × List Char) :=
  let r := strtoll line
  if r.2.length = line.length then .error fault.exit_failure
  else .ok ((ABS r.1 % 2 ^ 64).toNat, r.2)

/-- The loop of `parse_direction`: the first index `i` at which
`strcmp(e_heading_str[i], *line)` is `0`. -/
def parse_direction_loop : List (List Char) → Nat → List Char → Option Nat
  | [], _, _ => none
  | name :: names, i, line =>
    if name = line then some i else parse_direction_loop names (i + 1) line

/-- The function `parse_direction`. -/
def parse_direction (line : List Char) : Except fault (direction × List Char) :=
  match parse_direction_loop e_heading_str 0 line with
  | none => .error fault.exit_failure
  | some i => .ok (direction.ofVal i, line.drop (e_heading_str.getD i []).length)

/-- The function `parse_place`; the two numbers are stored in `uint32_t`. -/
def parse_place (line : List Char) : Except fault command_t :=
  match parse_number (line.drop 6) with
  | .error f => .error f
  | .ok (nx, line1) =>
    match expect_char ',' line1 with
    | .error f => .error f
    | .ok line2 =>
      match parse_number line2 with
      | .error f => .error f
      | .ok (ny, line3) =>
        match expect_char ',' line3 with
        | .error f => .error f
        | .ok line4 =>
          match parse_direction line4 with
          | .error f => .error f
          | .ok (heading, _) =>
            .ok { type := cmd_type.CMD_PLACE, x := nx % 2 ^ 32, y := ny % 2 ^ 32,
                  heading := heading }

/-- The function `parse_select`. -/
def parse_select (line : List Char) : Except fault command_t :=
  match parse_number (line.drop 6) with
  | .error f => .error f
  | .ok (i, _) => .ok { type := cmd_type.CMD_SELECT, select := i }

/-- The function `parse_unknown`. -/
def parse_unknown (line : List Char) : Except fault command_t :=
  if skip_whitespace line ≠ [] then .error fault.exit_failure
  else .ok { type := cmd_type.CMD_NONE }

/-- The struct `rule`. -/
structure rule where
  verb : List Char
  type : cmd_type
  adj_cb : Option (List Char → Except fault command_t)

/-- The table `parse_rules` without its last entry, the fallback rule
`{NULL, CMD_NONE, parse_unknown}`, which `parse` calls by itself. -/
def parse_rules : List rule :=
  [ { verb := "PLACE ".toList, type := cmd_type.CMD_PLACE, adj_cb := some parse_place },
    { verb := "MOVE".toList, type := cmd_type.CMD_MOVE, adj_cb := none },
    { verb := "LEFT".toList, type := cmd_type.CMD_LEFT, adj_cb := none },
    { verb := "RIGHT".toList, type := cmd_type.CMD_RIGHT, adj_cb := none },
    { verb := "REPORT".toList, type := cmd_type.CMD_REPORT, adj_cb := none },
    { verb := "ROBOT ".toList, type := cmd_type.CMD_SELECT, adj_cb := some parse_select } ]

/-- The loop over the rules in `parse`: the first rule with
`strncmp(rule->verb, line, strlen(rule->verb)) == 0`. -/
def find_rule : List rule → List Char → Option rule
  | [], _ => none
  | r :: rs, line => if r.verb.isPrefixOf line then some r else find_rule rs line

/-- The body of the loop of `parse` once a line has been read: the command
buffer after the line, or the fault that ends the run. -/
def parse_line (line : List Char) (cmds : List command_t) : Except fault (List command_t) :=
  if line = [] then .ok cmds
  else
    match find_rule parse_rules line with
    | some r =>
      match r.adj_cb with
      | some cb =>
        match cb line with
        | .error f => .error f
        | .ok cmd => .ok (cmd_buf_push cmds cmd)
      | none => .ok (cmd_buf_push cmds { type := r.type })
    | none =>
      match parse_unknown line with
      | .error f => .error f
      | .ok cmd => if cmd.type ≠ cmd_type.CMD_NONE then .ok (cmd_buf_push cmds cmd) else .ok cmds

/-- The loop of `parse`, with a bound on the number of iterations; `none`
means that the bound was reached before the end of the stream. -/
def parse_loop : Nat → List Char → List command_t → Option (Except fault (List command_t))
  | 0, _, _ => none
  | fuel + 1, stream, cmds =>
    match _getline stream with
    | none => some (.ok cmds)
    | some (buf, rest) =>
      match parse_line (c_str buf) cmds with
      | .error f => some (.error f)
      | .ok cmds1 => parse_loop fuel rest cmds1

/-- The function `parse` on the characters of the stream `in`. Every
iteration but the last consumes a character, so the bound is never reached
(`parse_loop_fuel`). -/
def parse (input : List Char) : Option (Except fault (List command_t)) :=
  parse_loop (input.length + 1) input []

/-- The function `main` on the characters of its input: what is written to
`stdout` and the fault that ended the run, if any. -/
def main (input : List Char) : Option (List Char × Option fault) :=
  match parse input with
  | none => none
  | some (.error f) => some ([], some f)
  | some (.ok cmds) => some ((exec cmds state0 []).out, (exec cmds state0 []).stopped)

/-! ## Definitions used to state the properties -/

/-- A state with one robot, placed at `x,y` facing `h` and selected. -/
def one_robot (x y : Nat) (h : direction) : state_t :=
  { robots := Function.update state0.robots ⟨0, by decide⟩
      { x := x, y := y, heading := h, is_placed := true },
    active := 1,
    selected := 0 }

/-- The coordinates of the robot are inside the table. -/
def robot_on_table (rb : robot) : Prop := rb.x ≤ TABLE_WIDTH ∧ rb.y ≤ TABLE_HEIGHT

/-- Every robot of the state is on the table and the selection is inside the
array. -/
def on_table (s : state_t) : Prop :=
  s.selected < MAX_ROBOT_COUNT ∧ ∀ i, robot_on_table (s.robots i)

/-- The heading to the right of a heading. -/
def right_of : direction → direction
  | DIR_NORTH => DIR_EAST
  | DIR_EAST => DIR_SOUTH
  | DIR_SOUTH => DIR_WEST
  | DIR_WEST => DIR_NORTH

/-- The heading to the left of a heading. -/
def left_of : direction → direction
  | DIR_NORTH => DIR_WEST
  | DIR_EAST => DIR_NORTH
  | DIR_SOUTH => DIR_EAST
  | DIR_WEST => DIR_SOUTH

/-- The state `s` with the heading of the selected robot replaced. -/
def with_heading (s : state_t) (hsel : s.selected < MAX_ROBOT_COUNT) (h : direction) : state_t :=
  { s with
    robots := Function.update s.robots ⟨s.selected, hsel⟩
      { s.robots ⟨s.selected, hsel⟩ with heading := h } }

/-- The text `t` is empty or starts with a character that is not a digit. -/
def stops_number (t : List Char) : Prop := ∀ c ∈ t.head?, isdigit c = false

/-- A decimal number as `strtoll` reads it: optional white space, an optional
sign and at least one decimal digit. -/
def is_number_text (t : List Char) : Prop :=
  ∃ ws sign ds : List Char, t = ws ++ sign ++ ds ∧ (∀ c ∈ ws, isspace c = true) ∧
    (sign = [] ∨ sign = ['+'] ∨ sign = ['-']) ∧ ds ≠ [] ∧ ∀ c ∈ ds, isdigit c = true

/-- The operands of a well-formed `PLACE` line: a number, a comma, a number,
a comma and one of the four heading names, with nothing after it. -/
def is_place_operands (r : List Char) : Prop :=
  ∃ (nx ny : List Char) (h : direction), is_number_text nx ∧ is_number_text ny ∧
    r = nx ++ [','] ++ ny ++ [','] ++ heading_str h

/-- The character ends a line for `_getline`. -/
def is_eol (c : Char) : Prop := c = '\n' ∨ c = '\r'

/-- The text has no line terminator and no NUL. -/
def plain_text (l : List Char) : Prop := ∀ c ∈ l, ¬ is_eol c ∧ c ≠ NUL

/-- The invariant of the states that `exec` reaches: at most `MAX_ROBOT_COUNT`
robots are active, the placed slots are the slots below `active`, and the
selection is inside the array, on an active robot as soon as there is one. -/
def well_formed (s : state_t) : Prop :=
  s.active ≤ MAX_ROBOT_COUNT ∧ s.selected < MAX_ROBOT_COUNT ∧
    (∀ i : Fin MAX_ROBOT_COUNT, (s.robots i).is_placed = true ↔ i.val < s.active) ∧
    (0 < s.active → s.selected < s.active)

/-- The number of `CMD_PLACE` commands of a sequence. -/
def count_place (cmds : List command_t) : Nat :=
  (cmds.filter (fun c => c.type = cmd_type.CMD_PLACE)).length

/-- The lines of a stream: the buffers that successive calls of `_getline`
return until the end of the stream (`lines_cons`). -/
def lines : List Char → List (List Char)
  | [] => []
  | c :: rest =>
    if c = '\n' ∨ c = '\r' then [] :: lines rest
    else
      match lines rest with
      | [] => [[c]]
      | l :: ls => (c :: l) :: ls

/-- The loop of `parse` run over the lines of the stream. -/
def parse_lines : List (List Char) → List command_t → Except fault (List command_t)
  | [], cmds => .ok cmds
  | l :: ls, cmds =>
    match parse_line (c_str l) cmds with
    | .error f => .error f
    | .ok cmds1 => parse_lines ls cmds1

/-- The spelling of a `PLACE` line: the sign and the number of leading zeros
in front of each coordinate, the coordinates and the heading. -/
structure place_args where
  sx : List Char
  kx : Nat
  x : Nat
  sy : List Char
  ky : Nat
  y : Nat
  heading : direction

/-- The spelling is that of a valid `PLACE` line: each sign is empty, `+` or
`-`, and the coordinates fit `uint32_t`. -/
def place_args.valid (p : place_args) : Prop :=
  (p.sx = [] ∨ p.sx = ['+'] ∨ p.sx = ['-']) ∧ (p.sy = [] ∨ p.sy = ['+'] ∨ p.sy = ['-']) ∧
    p.x < 2 ^ 32 ∧ p.y < 2 ^ 32

/-- The text of the line, without its line terminator. -/
def place_args.text (p : place_args) : List Char :=
  "PLACE ".toList ++ ((p.sx ++ List.replicate p.kx '0' ++ decimal p.x) ++ [',']
    ++ (p.sy ++ List.replicate p.ky '0' ++ decimal p.y) ++ [','] ++ heading_str p.heading)

/-- The command the line stands for. -/
def place_args.cmd (p : place_args) : command_t :=
  { type := cmd_type.CMD_PLACE, x := p.x, y := p.y, heading := p.heading }

/-- The robot the command places. -/
def place_args.robot (p : place_args) : robot :=
  { x := p.x, y := p.y, heading := p.heading, is_placed := true }

/-- The lines `PLACE 0,0,NORTH` and `PLACE 1,1,SOUTH`. -/
def two_places : List place_args :=
  [ { sx := [], kx := 0, x := 0, sy := [], ky := 0, y := 0, heading := DIR_NORTH },
    { sx := [], kx := 0, x := 1, sy := [], ky := 0, y := 1, heading := DIR_SOUTH } ]

/-! ## The execution engine -/

open cmd_type

theorem state_t_ext (s t : state_t) (hr : ∀ i, s.robots i = t.robots i)
    (ha : s.active = t.active) (hs : s.selected = t.selected) : s = t := by
  obtain ⟨r1, a1, s1⟩ := s
  obtain ⟨r2, a2, s2⟩ := t
  simp only at hr ha hs
  have : r1 = r2 := funext hr
  subst this ha hs
  rfl

theorem update_all (P : robot → Prop) (f : Fin MAX_ROBOT_COUNT → robot)
    (a : Fin MAX_ROBOT_COUNT) (v : robot) (hv : P v) (hf : ∀ i, P (f i)) :
    ∀ i, P (Function.update f a v i) := by
  intro i
  by_cases hi : i = a
  · subst hi
    rw [Function.update_same]
    exact hv
  · rw [Function.update_noteq hi]
    exact hf i

theorem exec_cmd_unplaced (s : state_t) (out : List Char) (cmd : command_t)
    (hsel : s.selected < MAX_ROBOT_COUNT)
    (hp : (s.robots ⟨s.selected, hsel⟩).is_placed = false)
    (h1 : cmd.type ≠ CMD_PLACE) (h2 : cmd.type ≠ CMD_SELECT) :
    exec_cmd s out cmd = .ok (s, out) := by
  simp [exec_cmd, hsel, hp, h1, h2]

theorem exec_cmd_state0 (out : List Char) (cmd : command_t)
    (h1 : cmd.type ≠ CMD_PLACE)
    (h2 : cmd.type = CMD_SELECT → 1 ≤ cmd.select ∧ cmd.select ≤ MAX_ROBOT_COUNT) :
    exec_cmd state0 out cmd = .ok (state0, out) := by
  by_cases hs : cmd.type = CMD_SELECT
  · obtain ⟨ha, hb⟩ := h2 hs
    have h0 : cmd.select ≠ 0 := by omega
    have h3 : cmd.select > state0.active := by simp [state0]; omega
    have hsel : state0.selected < MAX_ROBOT_COUNT := by decide
    simp [exec_cmd, hsel, hs, hb, h0, h3]
  · exact exec_cmd_unplaced state0 out cmd (by decide) rfl h1 hs

/-- Claim C2: a command sequence without `CMD_PLACE` (its `CMD_SELECT`
commands carrying an index in `1..MAX_ROBOT_COUNT`), run by `exec` from the
initial state, ends without a fault, leaves the state equal to the initial
state and writes nothing to `stdout`. -/
theorem exec_without_place (cmds : List command_t)
    (h : ∀ c ∈ cmds, c.type ≠ CMD_PLACE ∧
      (c.type = CMD_SELECT → 1 ≤ c.select ∧ c.select ≤ MAX_ROBOT_COUNT)) :
    exec cmds state0 [] = { state := state0, out := [], stopped := none } := by
  induction cmds with
  | nil => rfl
  | cons c cs ih =>
    have hc := h c (List.mem_cons_self _ _)
    rw [exec, exec_cmd_state0 [] c hc.1 hc.2]
    exact ih (fun d hd => h d (List.mem_cons_of_mem _ hd))

theorem exec_without_place_witness :
    (∀ c ∈ [({ type := CMD_MOVE } : command_t), { type := CMD_LEFT }, { type := CMD_RIGHT },
        { type := CMD_REPORT }, { type := CMD_SELECT, select := 3 }],
      c.type ≠ CMD_PLACE ∧
        (c.type = CMD_SELECT → 1 ≤ c.select ∧ c.select ≤ MAX_ROBOT_COUNT)) ∧
    exec [{ type := CMD_MOVE }, { type := CMD_LEFT }, { type := CMD_RIGHT },
        { type := CMD_REPORT }, { type := CMD_SELECT, select := 3 }] state0 []
      = { state := state0, out := [], stopped := none } :=
  ⟨by decide, exec_without_place _ (by decide)⟩

/-- Claim C3: on a state whose selected robot is placed at `x,y` with
`x ≤ 4` and `y ≤ 4`, `CMD_MOVE` ends without a fault and writes nothing; it
replaces the selected robot by the robot with the same heading, still
placed, whose `y` is one more when facing north unless `y = 4`, one less
when facing south unless `y = 0`, whose `x` is one more when facing east
unless `x = 4`, one less when facing west unless `x = 0`, and whose other
coordinate is unchanged. -/
theorem move_on_table (s : state_t) (out : List Char) (cmd : command_t)
    (hcmd : cmd.type = CMD_MOVE) (hsel : s.selected < MAX_ROBOT_COUNT)
    (x y : Nat) (h : direction)
    (hrb : s.robots ⟨s.selected, hsel⟩ = { x := x, y := y, heading := h, is_placed := true })
    (hx : x ≤ 4) (hy : y ≤ 4) :
    exec_cmd s out cmd
      = .ok ({ s with
          robots := Function.update s.robots ⟨s.selected, hsel⟩
            { x := (match h with
                    | DIR_EAST => if x = 4 then 4 else x + 1
                    | DIR_WEST => if x = 0 then 0 else x - 1
                    | _ => x),
              y := (match h with
                    | DIR_NORTH => if y = 4 then 4 else y + 1
                    | DIR_SOUTH => if y = 0 then 0 else y - 1
                    | _ => y),
              heading := h,
              is_placed := true } }, out) := by
  have e : move { x := x, y := y, heading := h, is_placed := true }
      = { x := (match h with
                | DIR_EAST => if x = 4 then 4 else x + 1
                | DIR_WEST => if x = 0 then 0 else x - 1
                | _ => x),
          y := (match h with
                | DIR_NORTH => if y = 4 then 4 else y + 1
                | DIR_SOUTH => if y = 0 then 0 else y - 1
                | _ => y),
          heading := h,
          is_placed := true } := by
    cases h <;> simp [move, TABLE_HEIGHT, TABLE_WIDTH] <;> split <;> omega
  have hp : (s.robots ⟨s.selected, hsel⟩).is_placed = true := by rw [hrb]
  rw [← e, ← hrb]
  simp [exec_cmd, hsel, hcmd, hp]

theorem move_on_table_witness :
    (one_robot 0 0 DIR_NORTH).robots ⟨0, by decide⟩
        = { x := 0, y := 0, heading := DIR_NORTH, is_placed := true } ∧
    exec_cmd (one_robot 0 0 DIR_NORTH) [] { type := CMD_MOVE }
      = .ok ({ one_robot 0 0 DIR_NORTH with
          robots := Function.update (one_robot 0 0 DIR_NORTH).robots ⟨0, by decide⟩
            { x := 0, y := 1, heading := DIR_NORTH, is_placed := true } }, []) :=
  ⟨by decide, move_on_table (one_robot 0 0 DIR_NORTH) [] { type := CMD_MOVE } rfl (by decide)
    0 0 DIR_NORTH (by decide) (by decide) (by decide)⟩

theorem move_le (rb : robot) (hrb : robot_on_table rb) : robot_on_table (move rb) := by
  obtain ⟨x, y, h, p⟩ := rb
  obtain ⟨hx, hy⟩ := hrb
  simp only [TABLE_WIDTH, TABLE_HEIGHT] at hx hy
  unfold robot_on_table
  cases h <;> simp [move, TABLE_HEIGHT, TABLE_WIDTH] <;> refine ⟨?_, ?_⟩ <;>
    first | omega | (split <;> omega)

theorem on_table_state0 : on_table state0 := by
  refine ⟨by decide, fun i => ?_⟩
  simp [state0, robot_on_table]

theorem on_table_step (s s1 : state_t) (out out1 : List Char) (cmd : command_t)
    (hb : cmd.type = CMD_PLACE → cmd.x ≤ TABLE_WIDTH ∧ cmd.y ≤ TABLE_HEIGHT)
    (hs : on_table s) (h : exec_cmd s out cmd = .ok (s1, out1)) : on_table s1 := by
  obtain ⟨hsel, hall⟩ := hs
  unfold exec_cmd at h
  simp only [hsel, dite_true] at h
  split at h
  · cases h; exact ⟨hsel, hall⟩
  · split at h
    · split at h
      · split at h
        · cases h
          rename_i hty _ hact
          exact ⟨hact, update_all robot_on_table _ _ _ (hb hty) hall⟩
        · cases h
      · cases h
    · cases h
      exact ⟨hsel, update_all robot_on_table _ _ _ (move_le _ (hall _)) hall⟩
    · cases h
      refine ⟨hsel, update_all robot_on_table _ _ _ ?_ hall⟩
      simp only [turn_left]
      split <;> exact hall _
    · cases h
      refine ⟨hsel, update_all robot_on_table _ _ _ ?_ hall⟩
      simp only [turn_right]
      split <;> exact hall _
    · cases h; exact ⟨hsel, hall⟩
    · split at h
      · split at h
        · cases h; exact ⟨hsel, hall⟩
        · split at h
          · split at h
            · cases h; exact ⟨hsel, hall⟩
            · cases h; rename_i hidx _; exact ⟨hidx, hall⟩
          · cases h
      · cases h
    · cases h

theorem on_table_exec (cmds : List command_t)
    (hb : ∀ c ∈ cmds, c.type = CMD_PLACE → c.x ≤ TABLE_WIDTH ∧ c.y ≤ TABLE_HEIGHT) :
    ∀ (s : state_t) (out : List Char), on_table s → on_table (exec cmds s out).state := by
  induction cmds with
  | nil => intro s out hs; exact hs
  | cons c cs ih =>
    intro s out hs
    rw [exec]
    cases hc : exec_cmd s out c with
    | error f => exact hs
    | ok r =>
      obtain ⟨s1, out1⟩ := r
      exact ih (fun d hd => hb d (List.mem_cons_of_mem _ hd)) s1 out1
        (on_table_step s s1 out out1 c (hb c (List.mem_cons_self _ _)) hs hc)

/-- Claim C4, refuted as stated: `PLACE 7,7,NORTH` followed by `MOVE`, run
from the initial state, ends without a fault and leaves the selected robot,
robot 0, at `7,8`, outside `0..TABLE_HEIGHT`. -/
theorem move_off_table :
    (exec [{ type := CMD_PLACE, x := 7, y := 7, heading := DIR_NORTH }, { type := CMD_MOVE }]
      state0 []).stopped = none ∧
    (exec [{ type := CMD_PLACE, x := 7, y := 7, heading := DIR_NORTH }, { type := CMD_MOVE }]
      state0 []).state.selected = 0 ∧
    ((exec [{ type := CMD_PLACE, x := 7, y := 7, heading := DIR_NORTH }, { type := CMD_MOVE }]
      state0 []).state.robots ⟨0, by decide⟩).x = 7 ∧
    ((exec [{ type := CMD_PLACE, x := 7, y := 7, heading := DIR_NORTH }, { type := CMD_MOVE }]
      state0 []).state.robots ⟨0, by decide⟩).y = 8 ∧
    ¬ ((exec [{ type := CMD_PLACE, x := 7, y := 7, heading := DIR_NORTH }, { type := CMD_MOVE }]
      state0 []).state.robots ⟨0, by decide⟩).y ≤ TABLE_HEIGHT :=
  ⟨by decide, by decide, by decide, by decide, by decide⟩

/-- Claim C4, amended: in the state that `exec` reaches from the initial
state by a command sequence whose `CMD_PLACE` commands all have
`x ≤ TABLE_WIDTH` and `y ≤ TABLE_HEIGHT`, `CMD_MOVE` ends without a fault and
the selected robot then has `x ≤ TABLE_WIDTH` and `y ≤ TABLE_HEIGHT`. -/
theorem move_stays_on_table (cmds : List command_t)
    (hb : ∀ c ∈ cmds, c.type = CMD_PLACE → c.x ≤ TABLE_WIDTH ∧ c.y ≤ TABLE_HEIGHT)
    (out : List Char) (mv : command_t) (hmv : mv.type = CMD_MOVE) :
    ∃ (s1 : state_t) (hsel : s1.selected < MAX_ROBOT_COUNT),
      exec_cmd (exec cmds state0 []).state out mv = .ok (s1, out) ∧
      (s1.robots ⟨s1.selected, hsel⟩).x ≤ TABLE_WIDTH ∧
      (s1.robots ⟨s1.selected, hsel⟩).y ≤ TABLE_HEIGHT := by
  have hs := on_table_exec cmds hb state0 [] on_table_state0
  have hok : ∃ s1, exec_cmd (exec cmds state0 []).state out mv = .ok (s1, out) := by
    unfold exec_cmd
    simp only [hs.1, dite_true, hmv]
    split
    · exact ⟨_, rfl⟩
    · exact ⟨_, rfl⟩
  obtain ⟨s1, h1⟩ := hok
  have hs1 := on_table_step _ s1 out out mv (by simp [hmv]) hs h1
  exact ⟨s1, hs1.1, h1, hs1.2 _⟩

theorem move_stays_on_table_witness :
    (∀ c ∈ [({ type := CMD_PLACE, x := 4, y := 4, heading := DIR_NORTH } : command_t),
        { type := CMD_MOVE }],
      c.type = CMD_PLACE → c.x ≤ TABLE_WIDTH ∧ c.y ≤ TABLE_HEIGHT) ∧
    ∃ (s1 : state_t) (hsel : s1.selected < MAX_ROBOT_COUNT),
      exec_cmd (exec [{ type := CMD_PLACE, x := 4, y := 4, heading := DIR_NORTH },
          { type := CMD_MOVE }] state0 []).state [] { type := CMD_MOVE } = .ok (s1, []) ∧
      (s1.robots ⟨s1.selected, hsel⟩).x ≤ TABLE_WIDTH ∧
      (s1.robots ⟨s1.selected, hsel⟩).y ≤ TABLE_HEIGHT :=
  ⟨by decide, move_stays_on_table _ (by decide) [] { type := CMD_MOVE } rfl⟩

theorem exec_cmd_left (s : state_t) (out : List Char) (cmd : command_t)
    (hcmd : cmd.type = CMD_LEFT) (hsel : s.selected < MAX_ROBOT_COUNT)
    (hp : (s.robots ⟨s.selected, hsel⟩).is_placed = true) :
    exec_cmd s out cmd = .ok ({ s with
        robots := Function.update s.robots ⟨s.selected, hsel⟩
          (turn_left (s.robots ⟨s.selected, hsel⟩)) }, out) := by
  simp [exec_cmd, hsel, hcmd, hp]

theorem exec_cmd_right (s : state_t) (out : List Char) (cmd : command_t)
    (hcmd : cmd.type = CMD_RIGHT) (hsel : s.selected < MAX_ROBOT_COUNT)
    (hp : (s.robots ⟨s.selected, hsel⟩).is_placed = true) :
    exec_cmd s out cmd = .ok ({ s with
        robots := Function.update s.robots ⟨s.selected, hsel⟩
          (turn_right (s.robots ⟨s.selected, hsel⟩)) }, out) := by
  simp [exec_cmd, hsel, hcmd, hp]

theorem turn_left_eq (rb : robot) : turn_left rb = { rb with heading := left_of rb.heading } := by
  obtain ⟨x, y, h, p⟩ := rb
  cases h <;> rfl

theorem turn_right_eq (rb : robot) :
    turn_right rb = { rb with heading := right_of rb.heading } := by
  obtain ⟨x, y, h, p⟩ := rb
  cases h <;> rfl

theorem with_heading_with_heading (s : state_t) (hsel : s.selected < MAX_ROBOT_COUNT)
    (h k : direction) :
    with_heading (with_heading s hsel h) hsel k = with_heading s hsel k := by
  apply state_t_ext
  · intro i
    by_cases hi : i = ⟨s.selected, hsel⟩
    · subst hi; simp [with_heading]
    · simp [with_heading, Function.update_noteq hi]
  · rfl
  · rfl

theorem with_heading_self (s : state_t) (hsel : s.selected < MAX_ROBOT_COUNT) :
    with_heading s hsel (s.robots ⟨s.selected, hsel⟩).heading = s := by
  apply state_t_ext
  · intro i
    by_cases hi : i = ⟨s.selected, hsel⟩
    · subst hi; simp [with_heading]
    · simp [with_heading, Function.update_noteq hi]
  · rfl
  · rfl

theorem exec_cmd_left_heading (s : state_t) (out : List Char) (cmd : command_t)
    (hcmd : cmd.type = CMD_LEFT) (hsel : s.selected < MAX_ROBOT_COUNT)
    (hp : (s.robots ⟨s.selected, hsel⟩).is_placed = true) :
    exec_cmd s out cmd
      = .ok (with_heading s hsel (left_of (s.robots ⟨s.selected, hsel⟩).heading), out) := by
  rw [exec_cmd_left s out cmd hcmd hsel hp, turn_left_eq]
  rfl

theorem exec_cmd_right_heading (s : state_t) (out : List Char) (cmd : command_t)
    (hcmd : cmd.type = CMD_RIGHT) (hsel : s.selected < MAX_ROBOT_COUNT)
    (hp : (s.robots ⟨s.selected, hsel⟩).is_placed = true) :
    exec_cmd s out cmd
      = .ok (with_heading s hsel (right_of (s.robots ⟨s.selected, hsel⟩).heading), out) := by
  rw [exec_cmd_right s out cmd hcmd hsel hp, turn_right_eq]
  rfl

theorem with_heading_placed (s : state_t) (hsel : s.selected < MAX_ROBOT_COUNT) (h : direction)
    (hp : (s.robots ⟨s.selected, hsel⟩).is_placed = true) :
    ((with_heading s hsel h).robots ⟨(with_heading s hsel h).selected, hsel⟩).is_placed = true := by
  simp [with_heading, hp]

theorem with_heading_heading (s : state_t) (hsel : s.selected < MAX_ROBOT_COUNT) (h : direction) :
    ((with_heading s hsel h).robots ⟨(with_heading s hsel h).selected, hsel⟩).heading = h := by
  simp [with_heading]

theorem exec_turns (s : state_t) (out : List Char) (hsel : s.selected < MAX_ROBOT_COUNT)
    (hp : (s.robots ⟨s.selected, hsel⟩).is_placed = true)
    (cmds : List command_t)
    (hc : ∀ c ∈ cmds, c.type = CMD_LEFT ∨ c.type = CMD_RIGHT) :
    exec cmds s out =
      { state := with_heading s hsel
          (cmds.foldl (fun h c => if c.type = CMD_LEFT then left_of h else right_of h)
            (s.robots ⟨s.selected, hsel⟩).heading),
        out := out, stopped := none } := by
  induction cmds generalizing s with
  | nil => simp [exec, with_heading_self]
  | cons c cs ih =>
    have hcs : ∀ d ∈ cs, d.type = CMD_LEFT ∨ d.type = CMD_RIGHT :=
      fun d hd => hc d (List.mem_cons_of_mem _ hd)
    rcases hc c (List.mem_cons_self _ _) with h | h
    · rw [exec, exec_cmd_left_heading s out c h hsel hp]
      simp only
      rw [ih (with_heading s hsel (left_of (s.robots ⟨s.selected, hsel⟩).heading)) hsel
        (with_heading_placed s hsel _ hp) hcs, with_heading_with_heading, with_heading_heading]
      simp [h]
    · rw [exec, exec_cmd_right_heading s out c h hsel hp]
      simp only
      rw [ih (with_heading s hsel (right_of (s.robots ⟨s.selected, hsel⟩).heading)) hsel
        (with_heading_placed s hsel _ hp) hcs, with_heading_with_heading, with_heading_heading]
      have hne : c.type ≠ CMD_LEFT := by rw [h]; decide
      simp [hne]

/-- Claim C5: on a state whose selected robot is placed, `CMD_RIGHT` only
changes the heading of the selected robot, from north to east, east to
south, south to west and west to north; `CMD_LEFT` only changes it the
opposite way; a right turn followed by a left turn, a left turn followed by
a right turn, four left turns and four right turns each end without a fault
in the state they started from, with nothing written. -/
theorem turns_cycle (s : state_t) (out : List Char) (hsel : s.selected < MAX_ROBOT_COUNT)
    (hp : (s.robots ⟨s.selected, hsel⟩).is_placed = true) :
    exec_cmd s out { type := CMD_RIGHT }
      = .ok ({ s with
          robots := Function.update s.robots ⟨s.selected, hsel⟩
            { s.robots ⟨s.selected, hsel⟩ with
              heading := (match (s.robots ⟨s.selected, hsel⟩).heading with
                          | DIR_NORTH => DIR_EAST
                          | DIR_EAST => DIR_SOUTH
                          | DIR_SOUTH => DIR_WEST
                          | DIR_WEST => DIR_NORTH) } }, out) ∧
    exec_cmd s out { type := CMD_LEFT }
      = .ok ({ s with
          robots := Function.update s.robots ⟨s.selected, hsel⟩
            { s.robots ⟨s.selected, hsel⟩ with
              heading := (match (s.robots ⟨s.selected, hsel⟩).heading with
                          | DIR_EAST => DIR_NORTH
                          | DIR_SOUTH => DIR_EAST
                          | DIR_WEST => DIR_SOUTH
                          | DIR_NORTH => DIR_WEST) } }, out) ∧
    exec [{ type := CMD_RIGHT }, { type := CMD_LEFT }] s out
      = { state := s, out := out, stopped := none } ∧
    exec [{ type := CMD_LEFT }, { type := CMD_RIGHT }] s out
      = { state := s, out := out, stopped := none } ∧
    exec [{ type := CMD_LEFT }, { type := CMD_LEFT }, { type := CMD_LEFT }, { type := CMD_LEFT }]
        s out = { state := s, out := out, stopped := none } ∧
    exec [{ type := CMD_RIGHT }, { type := CMD_RIGHT }, { type := CMD_RIGHT },
        { type := CMD_RIGHT }] s out = { state := s, out := out, stopped := none } := by
  refine ⟨?_, ?_, ?_, ?_, ?_, ?_⟩
  · rw [exec_cmd_right_heading s out _ rfl hsel hp]
    generalize hh : (s.robots ⟨s.selected, hsel⟩).heading = h
    cases h <;> simp [with_heading, right_of, hh]
  · rw [exec_cmd_left_heading s out _ rfl hsel hp]
    generalize hh : (s.robots ⟨s.selected, hsel⟩).heading = h
    cases h <;> simp [with_heading, left_of, hh]
  all_goals
    rw [exec_turns s out hsel hp _ (by decide)]
    generalize hh : (s.robots ⟨s.selected, hsel⟩).heading = h
    have e := with_heading_self s hsel
    rw [hh] at e
    cases h <;> simp [left_of, right_of, e]

theorem turns_cycle_witness :
    ((one_robot 1 2 DIR_EAST).robots ⟨0, by decide⟩).is_placed = true ∧
    exec_cmd (one_robot 1 2 DIR_EAST) [] { type := CMD_LEFT }
      = .ok ({ one_robot 1 2 DIR_EAST with
          robots := Function.update (one_robot 1 2 DIR_EAST).robots ⟨0, by decide⟩
            { x := 1, y := 2, heading := DIR_NORTH, is_placed := true } }, []) :=
  by
  have h := turns_cycle (one_robot 1 2 DIR_EAST) [] (by decide) (by decide)
  exact ⟨by decide, h.2.1⟩

/-- Claim C6: on a state whose selection is inside the array, a `CMD_SELECT`
with index `N` such that `1 ≤ N ≤ active` and robot `N` (slot `N - 1`) is
placed ends without a fault and only sets `selected` to `N - 1`; with any
other `N` the state, `selected` included, and the output are as before, and
the command ends without a fault exactly when `1 ≤ N ≤ MAX_ROBOT_COUNT` (the
assertion stops the run otherwise). -/
theorem select_robot (s : state_t) (out : List Char) (cmd : command_t)
    (hcmd : cmd.type = CMD_SELECT) (hsel : s.selected < MAX_ROBOT_COUNT) :
    ((1 ≤ cmd.select ∧ cmd.select ≤ s.active ∧
        ∃ h : cmd.select - 1 < MAX_ROBOT_COUNT, (s.robots ⟨cmd.select - 1, h⟩).is_placed = true) →
      exec [cmd] s out
        = { state := { s with selected := cmd.select - 1 }, out := out, stopped := none }) ∧
    (¬ (1 ≤ cmd.select ∧ cmd.select ≤ s.active ∧
        ∃ h : cmd.select - 1 < MAX_ROBOT_COUNT, (s.robots ⟨cmd.select - 1, h⟩).is_placed = true) →
      (exec [cmd] s out).state = s ∧ (exec [cmd] s out).out = out ∧
      ((exec [cmd] s out).stopped = none ↔ 1 ≤ cmd.select ∧ cmd.select ≤ MAX_ROBOT_COUNT)) := by
  constructor
  · rintro ⟨h1, h2, h3, h4⟩
    have h5 : cmd.select ≤ MAX_ROBOT_COUNT := by unfold MAX_ROBOT_COUNT at h3 ⊢; omega
    have h6 : cmd.select ≠ 0 := by omega
    have h7 : ¬ cmd.select > s.active := by omega
    simp [exec, exec_cmd, hsel, hcmd, h5, h6, h7, h3, h4]
  · intro hn
    by_cases ha : cmd.select ≤ MAX_ROBOT_COUNT ∧ cmd.select ≠ 0
    · have h3 : cmd.select - 1 < MAX_ROBOT_COUNT := by
        unfold MAX_ROBOT_COUNT at ha ⊢; omega
      have h1 : 1 ≤ cmd.select := by omega
      by_cases hb : cmd.select > s.active
      · simp [exec, exec_cmd, hsel, hcmd, ha, hb, h1]
      · have hp : (s.robots ⟨cmd.select - 1, h3⟩).is_placed = false := by
          by_contra hc
          exact hn ⟨h1, by omega, h3, by simpa using hc⟩
        simp [exec, exec_cmd, hsel, hcmd, ha, hb, h3, hp, h1]
    · have hc : ¬ (1 ≤ cmd.select ∧ cmd.select ≤ MAX_ROBOT_COUNT) := by
        intro h; apply ha; omega
      simp only [exec, exec_cmd, hsel, hcmd, ha, dite_true, if_false]
      simp
      intro h1
      by_contra h2
      exact hc ⟨h1, by omega⟩

theorem select_robot_witness :
    (exec [{ type := CMD_PLACE, x := 0, y := 0, heading := DIR_NORTH },
        { type := CMD_PLACE, x := 1, y := 1, heading := DIR_SOUTH }] state0 []).state.selected
      < MAX_ROBOT_COUNT ∧
    (exec [{ type := CMD_SELECT, select := 1 }]
        (exec [{ type := CMD_PLACE, x := 0, y := 0, heading := DIR_NORTH },
          { type := CMD_PLACE, x := 1, y := 1, heading := DIR_SOUTH }] state0 []).state
        []).state.selected = 0 :=
  ⟨by decide,
    congrArg (fun r => r.state.selected)
      ((select_robot
        (exec [{ type := CMD_PLACE, x := 0, y := 0, heading := DIR_NORTH },
          { type := CMD_PLACE, x := 1, y := 1, heading := DIR_SOUTH }] state0 []).state
        [] { type := CMD_SELECT, select := 1 } rfl (by decide)).1
        ⟨by decide, by decide, by decide, by decide⟩)⟩

/-- Claim C7: on a state with `active < MAX_ROBOT_COUNT` whose selection is
inside the array, a `CMD_PLACE` with any `x`, `y` and heading ends without a
fault and writes nothing; afterwards the slot at the old `active` holds
exactly `x`, `y`, the heading and `is_placed = true`, `selected` is the old
`active`, `active` is one more, and every other slot is unchanged. -/
theorem place_robot (s : state_t) (out : List Char) (cmd : command_t)
    (hcmd : cmd.type = CMD_PLACE) (hsel : s.selected < MAX_ROBOT_COUNT)
    (hact : s.active < MAX_ROBOT_COUNT) :
    ∃ s1 : state_t, exec_cmd s out cmd = .ok (s1, out) ∧
      s1.robots ⟨s.active, hact⟩
        = { x := cmd.x, y := cmd.y, heading := cmd.heading, is_placed := true } ∧
      s1.selected = s.active ∧ s1.active = s.active + 1 ∧
      ∀ i : Fin MAX_ROBOT_COUNT, i.val ≠ s.active → s1.robots i = s.robots i := by
  refine ⟨{ robots := Function.update s.robots ⟨s.active, hact⟩
              { x := cmd.x, y := cmd.y, heading := cmd.heading, is_placed := true },
            selected := s.active, active := s.active + 1 }, ?_, ?_, rfl, rfl, ?_⟩
  · simp [exec_cmd, hsel, hcmd, hact, Nat.le_of_lt hact]
  · simp
  · intro i hi
    have : i ≠ ⟨s.active, hact⟩ := fun h => hi (by rw [h])
    simp [Function.update_noteq this]

theorem place_robot_witness :
    (one_robot 0 0 DIR_NORTH).selected < MAX_ROBOT_COUNT ∧
    (one_robot 0 0 DIR_NORTH).active < MAX_ROBOT_COUNT ∧
    ∃ s1 : state_t,
      exec_cmd (one_robot 0 0 DIR_NORTH) []
        { type := CMD_PLACE, x := 4294967295, y := 7, heading := DIR_WEST } = .ok (s1, []) ∧
      s1.robots ⟨1, by decide⟩
        = { x := 4294967295, y := 7, heading := DIR_WEST, is_placed := true } ∧
      s1.selected = 1 ∧ s1.active = 2 ∧
      ∀ i : Fin MAX_ROBOT_COUNT, i.val ≠ 1 → s1.robots i = (one_robot 0 0 DIR_NORTH).robots i :=
  ⟨by decide, by decide,
    place_robot (one_robot 0 0 DIR_NORTH) []
      { type := CMD_PLACE, x := 4294967295, y := 7, heading := DIR_WEST } rfl (by decide)
      (by decide)⟩

/-! ## Decimal numerals -/

theorem isdigit_iff (c : Char) : isdigit c = true ↔ 48 ≤ c.toNat ∧ c.toNat ≤ 57 := by
  simp only [isdigit, Bool.and_eq_true, decide_eq_true_eq]
  rfl

theorem digitChar_isdigit (k : Nat) (hk : k < 10) : isdigit (Nat.digitChar k) = true := by
  interval_cases k <;> rfl

theorem digitChar_value (k : Nat) (hk : k < 10) : (Nat.digitChar k).toNat - '0'.toNat = k := by
  interval_cases k <;> rfl

theorem toDigitsCore_append (fuel : Nat) : ∀ (n : Nat) (ds : List Char),
    Nat.toDigitsCore 10 fuel n ds = Nat.toDigitsCore 10 fuel n [] ++ ds := by
  induction fuel with
  | zero => intro n ds; simp [Nat.toDigitsCore]
  | succ fuel ih =>
    intro n ds
    simp only [Nat.toDigitsCore]
    split
    · simp
    · rw [ih (n / 10) (_ :: ds), ih (n / 10) [_]]
      simp

theorem digits_value_snoc (ds : List Char) (c : Char) :
    digits_value (ds ++ [c]) = 10 * digits_value ds + (c.toNat - '0'.toNat) := by
  simp [digits_value, List.foldl_append]

theorem digits_value_toDigitsCore (fuel : Nat) : ∀ n : Nat, n < fuel →
    digits_value (Nat.toDigitsCore 10 fuel n []) = n := by
  induction fuel with
  | zero => intro n h; omega
  | succ fuel ih =>
    intro n h
    simp only [Nat.toDigitsCore]
    split
    · rename_i h0
      have : n < 10 := by omega
      have e : n % 10 = n := Nat.mod_eq_of_lt this
      rw [e]
      simp only [digits_value, List.foldl]
      rw [digitChar_value n this]
      omega
    · rename_i h0
      rw [toDigitsCore_append, digits_value_snoc, ih (n / 10) (by omega),
        digitChar_value _ (Nat.mod_lt _ (by decide))]
      omega

theorem digits_value_decimal (n : Nat) : digits_value (decimal n) = n :=
  digits_value_toDigitsCore (n + 1) n (Nat.lt_succ_self n)

theorem toDigitsCore_isdigit (fuel : Nat) : ∀ (n : Nat) (ds : List Char),
    (∀ c ∈ ds, isdigit c = true) → ∀ c ∈ Nat.toDigitsCore 10 fuel n ds, isdigit c = true := by
  induction fuel with
  | zero => intro n ds h; simpa [Nat.toDigitsCore] using h
  | succ fuel ih =>
    intro n ds h
    have hd : ∀ c ∈ Nat.digitChar (n % 10) :: ds, isdigit c = true := by
      intro c hc
      rcases List.mem_cons.mp hc with rfl | hc
      · exact digitChar_isdigit _ (Nat.mod_lt _ (by decide))
      · exact h c hc
    simp only [Nat.toDigitsCore]
    split
    · exact hd
    · exact ih _ _ hd

theorem decimal_isdigit (n : Nat) : ∀ c ∈ decimal n, isdigit c = true :=
  toDigitsCore_isdigit (n + 1) n [] (by simp)

theorem decimal_ne_nil (n : Nat) : decimal n ≠ [] := by
  unfold decimal Nat.toDigits
  simp only [Nat.toDigitsCore]
  split
  · simp
  · rw [toDigitsCore_append]; simp

theorem newline_not_mem_decimal (n : Nat) : '\n' ∉ decimal n := by
  intro h
  have := decimal_isdigit n _ h
  revert this
  decide

theorem newline_not_mem_heading_str (h : direction) : '\n' ∉ heading_str h := by
  cases h <;> decide

theorem heading_str_eq (h : direction) :
    heading_str h = (match h with
      | DIR_NORTH => "NORTH".toList
      | DIR_EAST => "EAST".toList
      | DIR_SOUTH => "SOUTH".toList
      | DIR_WEST => "WEST".toList) := by
  cases h <;> rfl

/-- Claim C8, refuted as stated: for the robot placed at `0,0` facing north,
`CMD_REPORT` writes `Robot 1 of 1: 0,0,NORTH`, with a space and no comma
after the selected number, which is not the text `Robot 1,of 1: 0,0,NORTH`
of the claimed format. -/
theorem report_separator :
    exec_cmd (one_robot 0 0 DIR_NORTH) [] { type := CMD_REPORT }
      = .ok (one_robot 0 0 DIR_NORTH, "Robot 1 of 1: 0,0,NORTH\n".toList) ∧
    "Robot 1 of 1: 0,0,NORTH\n".toList ≠ "Robot 1,of 1: 0,0,NORTH\n".toList :=
  ⟨rfl, by decide⟩

/-- Claim C8, amended: on a state whose selected robot is placed,
`CMD_REPORT` ends without a fault, leaves the state unchanged and appends to
`stdout` exactly one line, ended by a newline: the text
`Robot <s> of <a>: <X>,<Y>,<HEADING>` where `s` is `selected + 1`, `a` is
`active`, `X` and `Y` are the coordinates in decimal and `HEADING` is the
name of the heading. -/
theorem report_line (s : state_t) (out : List Char) (cmd : command_t)
    (hcmd : cmd.type = CMD_REPORT) (hsel : s.selected < MAX_ROBOT_COUNT)
    (hp : (s.robots ⟨s.selected, hsel⟩).is_placed = true) :
    ∃ line : List Char,
      exec_cmd s out cmd = .ok (s, out ++ line ++ ['\n']) ∧ '\n' ∉ line ∧
      line = "Robot ".toList ++ decimal (s.selected + 1) ++ " of ".toList ++ decimal s.active
        ++ ": ".toList ++ decimal (s.robots ⟨s.selected, hsel⟩).x ++ [',']
        ++ decimal (s.robots ⟨s.selected, hsel⟩).y ++ [',']
        ++ (match (s.robots ⟨s.selected, hsel⟩).heading with
            | DIR_NORTH => "NORTH".toList
            | DIR_EAST => "EAST".toList
            | DIR_SOUTH => "SOUTH".toList
            | DIR_WEST => "WEST".toList) := by
  refine ⟨_, ?_, ?_, rfl⟩
  · rw [← heading_str_eq]
    simp [exec_cmd, hsel, hcmd, hp, report_text]
  · rw [← heading_str_eq]
    simp only [List.mem_append, not_or]
    repeat' apply And.intro
    all_goals first
      | exact newline_not_mem_decimal _
      | exact newline_not_mem_heading_str _
      | decide

theorem report_line_witness :
    ((one_robot 0 1 DIR_NORTH).robots ⟨0, by decide⟩).is_placed = true ∧
    ∃ line : List Char,
      exec_cmd (one_robot 0 1 DIR_NORTH) [] { type := CMD_REPORT }
        = .ok (one_robot 0 1 DIR_NORTH, [] ++ line ++ ['\n']) ∧ '\n' ∉ line ∧
      line = "Robot 1 of 1: 0,1,NORTH".toList :=
  by
  have h := report_line (one_robot 0 1 DIR_NORTH) [] { type := CMD_REPORT } rfl (by decide)
    (by decide)
  exact ⟨by decide, h⟩

/-! ## The parser: numbers -/

theorem number_magnitude (v : Nat) (hv : v < 2 ^ 63) (neg : Bool) :
    (ABS (max LLONG_MIN (min LLONG_MAX (if neg then -(v : Int) else (v : Int)))) % 2 ^ 64).toNat
      = v := by
  have e63 : (2 : Int) ^ 63 = 9223372036854775808 := by norm_num
  have e64 : (2 : Int) ^ 64 = 18446744073709551616 := by norm_num
  have n63 : (2 : Nat) ^ 63 = 9223372036854775808 := by norm_num
  rw [n63] at hv
  unfold ABS wrap_int64 LLONG_MIN LLONG_MAX
  rw [e63, e64]
  cases neg <;> simp only [Bool.false_eq_true, if_false, if_true] <;> split <;> omega

theorem takeWhile_stop (p : Char → Bool) (ds rest : List Char) (hd : ∀ c ∈ ds, p c = true)
    (hr : ∀ c ∈ rest.head?, p c = false) :
    (ds ++ rest).takeWhile p = ds ∧ (ds ++ rest).dropWhile p = rest := by
  rw [List.takeWhile_append_of_pos hd, List.dropWhile_append_of_pos hd]
  cases rest with
  | nil => simp
  | cons c cs =>
    have hc : p c = false := hr c (by simp)
    simp [List.takeWhile_cons, List.dropWhile_cons, hc]

theorem isdigit_not_isspace (c : Char) (h : isdigit c = true) : isspace c = false := by
  rw [isdigit_iff] at h
  simp only [isspace, Bool.or_eq_false_iff, decide_eq_false_iff_not]
  refine ⟨⟨⟨⟨⟨?_, ?_⟩, ?_⟩, ?_⟩, ?_⟩, ?_⟩ <;> (intro e; rw [e] at h; revert h; decide)

theorem isdigit_ne (c d : Char) (h : isdigit c = true) (hd : isdigit d = false) : c ≠ d := by
  intro e; rw [e, hd] at h; exact Bool.noConfusion h

theorem strtoll_number (ws sign ds rest : List Char) (hws : ∀ c ∈ ws, isspace c = true)
    (hsign : sign = [] ∨ sign = ['+'] ∨ sign = ['-']) (hds : ds ≠ [])
    (hd : ∀ c ∈ ds, isdigit c = true) (hr : stops_number rest) :
    strtoll (ws ++ sign ++ ds ++ rest)
      = (max LLONG_MIN (min LLONG_MAX
          (if sign = ['-'] then -(digits_value ds : Int) else (digits_value ds : Int))), rest) := by
  obtain ⟨d, ds', rfl⟩ := List.exists_cons_of_ne_nil hds
  have hdd : isdigit d = true := hd d (by simp)
  have hsp : isspace d = false := isdigit_not_isspace d hdd
  have hm : d ≠ '-' := isdigit_ne d '-' hdd (by decide)
  have hp : d ≠ '+' := isdigit_ne d '+' hdd (by decide)
  obtain ⟨h1, h2⟩ := takeWhile_stop isdigit (d :: ds') rest hd hr
  have h1' : List.takeWhile isdigit (d :: (ds' ++ rest)) = d :: ds' := h1
  have h2' : List.dropWhile isdigit (d :: (ds' ++ rest)) = rest := h2
  unfold strtoll
  rw [List.append_assoc, List.append_assoc, List.dropWhile_append_of_pos hws]
  rcases hsign with rfl | rfl | rfl
  · simp [List.dropWhile_cons, hsp, hm, hp, h1', h2']
  · have : isspace '+' = false := by decide
    simp [List.dropWhile_cons, this, h1', h2']
  · have : isspace '-' = false := by decide
    simp [List.dropWhile_cons, this, h1', h2']

theorem parse_number_number (ws sign ds rest : List Char) (hws : ∀ c ∈ ws, isspace c = true)
    (hsign : sign = [] ∨ sign = ['+'] ∨ sign = ['-']) (hds : ds ≠ [])
    (hd : ∀ c ∈ ds, isdigit c = true) (hr : stops_number rest) (hv : digits_value ds < 2 ^ 63) :
    parse_number (ws ++ sign ++ ds ++ rest) = .ok (digits_value ds, rest) := by
  unfold parse_number
  rw [strtoll_number ws sign ds rest hws hsign hds hd hr]
  have hlen : ¬ rest.length = (ws ++ sign ++ ds ++ rest).length := by
    have : 0 < ds.length := List.length_pos.mpr hds
    simp only [List.length_append]
    omega
  simp only [hlen, if_false]
  have := number_magnitude (digits_value ds) hv (decide (sign = ['-']))
  simp only [decide_eq_true_eq] at this
  rw [this]

theorem stops_number_dropWhile (t : List Char) : stops_number (t.dropWhile isdigit) := by
  intro c hc
  have := List.head?_dropWhile_not isdigit t
  rw [Option.mem_def] at hc
  rw [hc] at this
  simpa using this

theorem strtoll_cases (t : List Char) :
    strtoll t = (0, t) ∨
      ∃ nx : List Char, is_number_text nx ∧ t = nx ++ (strtoll t).2 ∧
        stops_number (strtoll t).2 := by
  have ht : t = t.takeWhile isspace ++ t.dropWhile isspace :=
    (List.takeWhile_append_dropWhile isspace t).symm
  have hws : ∀ c ∈ t.takeWhile isspace, isspace c = true := fun c hc => List.mem_takeWhile_imp hc
  unfold strtoll
  simp only
  generalize t.dropWhile isspace = s at ht
  generalize t.takeWhile isspace = ws at ht hws
  rcases s with _ | ⟨c, cs⟩
  · left; simp
  · by_cases hc : c = '-' ∨ c = '+'
    · by_cases hds : cs.takeWhile isdigit = []
      · left; simp [hc, hds]
      · right
        refine ⟨ws ++ [c] ++ cs.takeWhile isdigit, ⟨ws, [c], _, rfl, hws, ?_, hds,
          fun d hd => List.mem_takeWhile_imp hd⟩, ?_, ?_⟩
        · rcases hc with rfl | rfl <;> simp
        · simp [hc, hds, ht]
        · simp only [List.head?_cons, Option.some.injEq, hc, if_true, List.tail_cons, hds,
            if_false]
          exact stops_number_dropWhile cs
    · by_cases hds : (c :: cs).takeWhile isdigit = []
      · left; simp [hc, hds]
      · right
        refine ⟨ws ++ [] ++ (c :: cs).takeWhile isdigit, ⟨ws, [], _, rfl, hws, Or.inl rfl, hds,
          fun d hd => List.mem_takeWhile_imp hd⟩, ?_, ?_⟩
        · simp only [List.head?_cons, Option.some.injEq, hc, if_false, hds]
          rw [List.append_nil, List.append_assoc, List.takeWhile_append_dropWhile]
          exact ht
        · simp only [List.head?_cons, Option.some.injEq, hc, if_false, hds]
          exact stops_number_dropWhile (c :: cs)

theorem parse_number_ok (t e : List Char) (v : Nat) (h : parse_number t = .ok (v, e)) :
    ∃ nx : List Char, is_number_text nx ∧ t = nx ++ e ∧ stops_number e := by
  unfold parse_number at h
  simp only at h
  split at h
  · cases h
  · rename_i hlen
    simp only [Except.ok.injEq, Prod.mk.injEq] at h
    obtain ⟨-, rfl⟩ := h
    rcases strtoll_cases t with h0 | h1
    · rw [h0] at hlen; exact absurd rfl hlen
    · exact h1

/-! ## The parser: `PLACE` lines -/

theorem parse_direction_heading_str (h : direction) :
    parse_direction (heading_str h) = .ok (h, []) := by
  cases h <;> rfl

theorem parse_direction_ok (l e : List Char) (h : direction)
    (hh : parse_direction l = .ok (h, e)) : l = heading_str h := by
  unfold parse_direction at hh
  simp only [e_heading_str, parse_direction_loop] at hh
  by_cases h0 : "NORTH".toList = l
  · simp only [h0, if_true] at hh
    cases hh; exact h0.symm
  · by_cases h1 : "EAST".toList = l
    · simp only [h0, h1, if_true, if_false] at hh
      cases hh; exact h1.symm
    · by_cases h2 : "SOUTH".toList = l
      · simp only [h0, h1, h2, if_true, if_false] at hh
        cases hh; exact h2.symm
      · by_cases h3 : "WEST".toList = l
        · simp only [h0, h1, h2, h3, if_true, if_false] at hh
          cases hh; exact h3.symm
        · simp only [h0, h1, h2, h3, if_false] at hh
          cases hh

theorem heading_str_append_ne (h k : direction) (g : List Char) (hg : g ≠ []) :
    heading_str h ++ g ≠ heading_str k := by
  intro e
  cases h <;> cases k <;>
    simp [heading_str, e_heading_str, direction.val] at e <;> exact hg e

theorem parse_direction_garbage (h : direction) (g : List Char) (hg : g ≠ []) :
    parse_direction (heading_str h ++ g) = .error fault.exit_failure := by
  cases hp : parse_direction (heading_str h ++ g) with
  | error f =>
    unfold parse_direction at hp
    split at hp <;> cases hp
    rfl
  | ok r =>
    obtain ⟨k, e⟩ := r
    exact absurd (parse_direction_ok _ e k hp) (heading_str_append_ne h k g hg)

theorem stops_number_comma (t : List Char) : stops_number (',' :: t) := by
  intro c hc
  simp only [List.head?_cons, Option.mem_def, Option.some.injEq] at hc
  subst hc
  decide

theorem parse_number_text (nx rest : List Char) (hnx : is_number_text nx)
    (hr : stops_number rest) : ∃ v : Nat, parse_number (nx ++ rest) = .ok (v, rest) := by
  obtain ⟨ws, sign, ds, rfl, hws, hsign, hds, hd⟩ := hnx
  have hlen : ¬ rest.length = (ws ++ sign ++ ds ++ rest).length := by
    have : 0 < ds.length := List.length_pos.mpr hds
    simp only [List.length_append]
    omega
  unfold parse_number
  rw [strtoll_number ws sign ds rest hws hsign hds hd hr]
  simp only [hlen, if_false]
  exact ⟨_, rfl⟩

theorem verb_place : "PLACE ".toList = ['P', 'L', 'A', 'C', 'E', ' '] := rfl
theorem verb_robot : "ROBOT ".toList = ['R', 'O', 'B', 'O', 'T', ' '] := rfl
theorem verb_move : "MOVE".toList = ['M', 'O', 'V', 'E'] := rfl
theorem verb_left : "LEFT".toList = ['L', 'E', 'F', 'T'] := rfl
theorem verb_right : "RIGHT".toList = ['R', 'I', 'G', 'H', 'T'] := rfl
theorem verb_report : "REPORT".toList = ['R', 'E', 'P', 'O', 'R', 'T'] := rfl

/-- The steps of `parse_place` after the verb, on the operands `r`. -/
theorem parse_place_operands (nx ny tail : List Char) (hnx : is_number_text nx)
    (hny : is_number_text ny) :
    ∃ vx vy : Nat,
      parse_number (nx ++ [','] ++ ny ++ [','] ++ tail) = .ok (vx, [','] ++ ny ++ [','] ++ tail) ∧
      parse_number (ny ++ [','] ++ tail) = .ok (vy, [','] ++ tail) ∧
      parse_place ("PLACE ".toList ++ (nx ++ [','] ++ ny ++ [','] ++ tail))
        = (match parse_direction tail with
           | .error f => .error f
           | .ok (heading, _) =>
             .ok { type := CMD_PLACE, x := vx % 2 ^ 32, y := vy % 2 ^ 32, heading := heading }) := by
  obtain ⟨vx, hvx⟩ := parse_number_text nx (',' :: (ny ++ ',' :: tail)) hnx (stops_number_comma _)
  obtain ⟨vy, hvy⟩ := parse_number_text ny (',' :: tail) hny (stops_number_comma _)
  refine ⟨vx, vy, ?_, ?_, ?_⟩
  · simpa using hvx
  · simpa using hvy
  · have e : List.drop 6 ("PLACE ".toList ++ (nx ++ [','] ++ ny ++ [','] ++ tail))
        = nx ++ ',' :: (ny ++ ',' :: tail) := by
      rw [verb_place]; simp
    unfold parse_place
    rw [e, hvx]
    simp only [expect_char, ne_eq, not_true_eq_false, if_false, hvy]

theorem expect_char_ok (c : Char) (l l1 : List Char) (h : expect_char c l = .ok l1) :
    l = c :: l1 := by
  unfold expect_char at h
  split at h
  · cases h
  · split at h
    · cases h
    · rename_i d rest hd
      simp only [ne_eq, Decidable.not_not] at hd
      cases h
      rw [hd]

theorem parse_place_ok (l : List Char) (cmd : command_t) (h : parse_place l = .ok cmd) :
    is_place_operands (l.drop 6) := by
  unfold parse_place at h
  split at h
  · cases h
  · rename_i nx line1 h1
    split at h
    · cases h
    · rename_i line2 h2
      split at h
      · cases h
      · rename_i ny line3 h3
        split at h
        · cases h
        · rename_i line4 h4
          split at h
          · cases h
          · rename_i heading e h5
            obtain ⟨tx, htx, ex, -⟩ := parse_number_ok _ _ _ h1
            obtain ⟨ty, hty, ey, -⟩ := parse_number_ok _ _ _ h3
            have e2 := expect_char_ok _ _ _ h2
            have e4 := expect_char_ok _ _ _ h4
            have e5 := parse_direction_ok _ _ _ h5
            refine ⟨tx, ty, heading, htx, hty, ?_⟩
            rw [ex, e2, ey, e4, e5]
            simp

theorem parse_number_exit (t : List Char) (f : fault) (h : parse_number t = .error f) :
    f = fault.exit_failure := by
  unfold parse_number at h
  simp only at h
  split at h <;> cases h
  rfl

theorem expect_char_exit (c : Char) (t : List Char) (f : fault)
    (h : expect_char c t = .error f) : f = fault.exit_failure := by
  unfold expect_char at h
  split at h
  · cases h; rfl
  · split at h <;> cases h
    rfl

theorem parse_direction_exit (t : List Char) (f : fault) (h : parse_direction t = .error f) :
    f = fault.exit_failure := by
  unfold parse_direction at h
  split at h <;> cases h
  rfl

theorem parse_place_exit (l : List Char) (f : fault) (h : parse_place l = .error f) :
    f = fault.exit_failure := by
  unfold parse_place at h
  split at h
  · rename_i h1; cases h; exact parse_number_exit _ _ h1
  · split at h
    · rename_i h2; cases h; exact expect_char_exit _ _ _ h2
    · split at h
      · rename_i h3; cases h; exact parse_number_exit _ _ h3
      · split at h
        · rename_i h4; cases h; exact expect_char_exit _ _ _ h4
        · split at h
          · rename_i h5; cases h; exact parse_direction_exit _ _ h5
          · cases h

theorem parse_select_exit (l : List Char) (f : fault) (h : parse_select l = .error f) :
    f = fault.exit_failure := by
  unfold parse_select at h
  split at h
  · rename_i h1; cases h; exact parse_number_exit _ _ h1
  · cases h

theorem parse_unknown_exit (l : List Char) (f : fault) (h : parse_unknown l = .error f) :
    f = fault.exit_failure := by
  unfold parse_unknown at h
  split at h <;> cases h
  rfl

/-! ## The parser: lines and the loop of `parse` -/

theorem c_str_append (a b : List Char) (ha : NUL ∉ a) : c_str (a ++ b) = a ++ c_str b := by
  unfold c_str
  rw [List.takeWhile_append_of_pos]
  intro c hc
  simp only [bne_iff_ne, ne_eq]
  intro e
  exact ha (e ▸ hc)

theorem c_str_self (a : List Char) (ha : NUL ∉ a) : c_str a = a := by
  have := c_str_append a [] ha
  simpa [c_str] using this

theorem c_str_place (r : List Char) : c_str ("PLACE ".toList ++ r) = "PLACE ".toList ++ c_str r :=
  c_str_append _ _ (by decide)

theorem parse_line_place (r : List Char) (cmds : List command_t) (cmd : command_t)
    (h : parse_place ("PLACE ".toList ++ r) = .ok cmd) :
    parse_line ("PLACE ".toList ++ r) cmds = .ok (cmds ++ [cmd]) := by
  simp only [verb_place, List.cons_append, List.nil_append] at h
  simp [parse_line, verb_place, find_rule, parse_rules, cmd_buf_push, h]

theorem parse_line_place_error (r : List Char) (cmds : List command_t) (f : fault)
    (h : parse_place ("PLACE ".toList ++ r) = .error f) :
    parse_line ("PLACE ".toList ++ r) cmds = .error f := by
  simp only [verb_place, List.cons_append, List.nil_append] at h
  simp [parse_line, verb_place, find_rule, parse_rules, cmd_buf_push, h]

theorem parse_line_robot (r : List Char) (cmds : List command_t) (cmd : command_t)
    (h : parse_select ("ROBOT ".toList ++ r) = .ok cmd) :
    parse_line ("ROBOT ".toList ++ r) cmds = .ok (cmds ++ [cmd]) := by
  simp only [verb_robot, List.cons_append, List.nil_append] at h
  simp [parse_line, verb_robot, verb_place, verb_move, verb_left, verb_right, verb_report,
    find_rule, parse_rules, cmd_buf_push, h]

theorem parse_line_move (g : List Char) (cmds : List command_t) :
    parse_line ("MOVE".toList ++ g) cmds = .ok (cmds ++ [{ type := CMD_MOVE }]) := by
  simp [parse_line, verb_place, verb_move, find_rule, parse_rules, cmd_buf_push]

theorem parse_line_left (g : List Char) (cmds : List command_t) :
    parse_line ("LEFT".toList ++ g) cmds = .ok (cmds ++ [{ type := CMD_LEFT }]) := by
  simp [parse_line, verb_place, verb_move, verb_left, find_rule, parse_rules, cmd_buf_push]

theorem parse_line_right (g : List Char) (cmds : List command_t) :
    parse_line ("RIGHT".toList ++ g) cmds = .ok (cmds ++ [{ type := CMD_RIGHT }]) := by
  simp [parse_line, verb_place, verb_move, verb_left, verb_right, find_rule, parse_rules,
    cmd_buf_push]

theorem parse_line_report (g : List Char) (cmds : List command_t) :
    parse_line ("REPORT".toList ++ g) cmds = .ok (cmds ++ [{ type := CMD_REPORT }]) := by
  simp [parse_line, verb_place, verb_move, verb_left, verb_right, verb_report, find_rule,
    parse_rules, cmd_buf_push]

theorem find_rule_cb (l : List Char) (r : rule) (cb : List Char → Except fault command_t)
    (h : find_rule parse_rules l = some r) (hcb : r.adj_cb = some cb) :
    cb = parse_place ∨ cb = parse_select := by
  simp only [parse_rules, find_rule] at h
  repeat' split at h
  all_goals first
    | (cases h; done)
    | (simp only [Option.some.injEq] at h; subst h; cases hcb; done)
    | (simp only [Option.some.injEq] at h; subst h; cases hcb; left; rfl)
    | (simp only [Option.some.injEq] at h; subst h; cases hcb; right; rfl)

theorem parse_line_exit (l : List Char) (cmds : List command_t) (f : fault)
    (h : parse_line l cmds = .error f) : f = fault.exit_failure := by
  unfold parse_line at h
  split at h
  · cases h
  · split at h
    · rename_i r hr
      split at h
      · rename_i cb hcb
        split at h
        · rename_i f1 hf
          cases h
          rcases find_rule_cb l r cb hr hcb with rfl | rfl
          · exact parse_place_exit _ _ hf
          · exact parse_select_exit _ _ hf
        · cases h
      · cases h
    · split at h
      · rename_i f1 hf
        cases h
        exact parse_unknown_exit _ _ hf
      · split at h <;> cases h

theorem read_line_eol (l rest : List Char) (t : Char) (hl : ∀ c ∈ l, ¬ is_eol c)
    (ht : is_eol t) : read_line (l ++ t :: rest) = (l, rest) := by
  induction l with
  | nil =>
    unfold is_eol at ht
    simp [read_line, ht]
  | cons c cs ih =>
    have hc : ¬ (c = '\n' ∨ c = '\r') := hl c (List.mem_cons_self _ _)
    have := ih (fun d hd => hl d (List.mem_cons_of_mem _ hd))
    simp [read_line, hc, this]

theorem read_line_end (l : List Char) (hl : ∀ c ∈ l, ¬ is_eol c) : read_line l = (l, []) := by
  induction l with
  | nil => rfl
  | cons c cs ih =>
    have hc : ¬ (c = '\n' ∨ c = '\r') := hl c (List.mem_cons_self _ _)
    have := ih (fun d hd => hl d (List.mem_cons_of_mem _ hd))
    simp [read_line, hc, this]

theorem getline_eol (l rest : List Char) (t : Char) (hl : ∀ c ∈ l, ¬ is_eol c)
    (ht : is_eol t) : _getline (l ++ t :: rest) = some (l, rest) := by
  have := read_line_eol l rest t hl ht
  cases l with
  | nil => simpa [_getline] using this
  | cons c cs => simpa [_getline] using this

theorem getline_end (l : List Char) (hl : ∀ c ∈ l, ¬ is_eol c) (hne : l ≠ []) :
    _getline l = some (l, []) := by
  have := read_line_end l hl
  cases l with
  | nil => exact absurd rfl hne
  | cons c cs => simpa [_getline] using this

theorem parse_loop_line_ok (fuel : Nat) (l rest : List Char) (t : Char)
    (cmds c1 : List command_t) (hl : ∀ c ∈ l, ¬ is_eol c) (ht : is_eol t)
    (h : parse_line (c_str l) cmds = .ok c1) :
    parse_loop (fuel + 1) (l ++ t :: rest) cmds = parse_loop fuel rest c1 := by
  simp only [parse_loop, getline_eol l rest t hl ht, h]

theorem parse_loop_line_error (fuel : Nat) (l rest : List Char) (t : Char)
    (cmds : List command_t) (f : fault) (hl : ∀ c ∈ l, ¬ is_eol c) (ht : is_eol t)
    (h : parse_line (c_str l) cmds = .error f) :
    parse_loop (fuel + 1) (l ++ t :: rest) cmds = some (.error f) := by
  simp only [parse_loop, getline_eol l rest t hl ht, h]

theorem parse_loop_last_ok (fuel : Nat) (l : List Char) (cmds c1 : List command_t)
    (hl : ∀ c ∈ l, ¬ is_eol c) (hne : l ≠ []) (h : parse_line (c_str l) cmds = .ok c1) :
    parse_loop (fuel + 2) l cmds = some (.ok c1) := by
  have e : parse_loop (fuel + 1) [] c1 = some (.ok c1) := rfl
  rw [← e]
  simp only [parse_loop, getline_end l hl hne, h]

theorem parse_loop_last_error (fuel : Nat) (l : List Char) (cmds : List command_t) (f : fault)
    (hl : ∀ c ∈ l, ¬ is_eol c) (hne : l ≠ []) (h : parse_line (c_str l) cmds = .error f) :
    parse_loop (fuel + 1) l cmds = some (.error f) := by
  simp only [parse_loop, getline_end l hl hne, h]

theorem parse_one_line (l : List Char) (hl : ∀ c ∈ l, ¬ is_eol c) (hne : l ≠ []) :
    parse l = some (parse_line (c_str l) []) ∧
    parse (l ++ ['\n']) = some (parse_line (c_str l) []) := by
  obtain ⟨c, cs, rfl⟩ := List.exists_cons_of_ne_nil hne
  have hn : is_eol '\n' := Or.inl rfl
  unfold parse
  cases h : parse_line (c_str (c :: cs)) [] with
  | error f =>
    constructor
    · exact parse_loop_last_error _ _ _ f hl hne h
    · rw [List.length_append]
      exact parse_loop_line_error _ _ [] '\n' [] f hl hn h
  | ok c1 =>
    constructor
    · exact parse_loop_last_ok _ _ _ c1 hl hne h
    · rw [List.length_append]
      rw [parse_loop_line_ok _ _ [] '\n' [] c1 hl hn h]
      rfl

theorem first_line_split (p : List Char) (t : Char) (ht : is_eol t) :
    ∃ (l1 : List Char) (t1 : Char) (q : List Char), p ++ [t] = l1 ++ t1 :: q ∧
      (∀ c ∈ l1, ¬ is_eol c) ∧ is_eol t1 ∧
      (q = [] ∨ ∃ (p1 : List Char) (t2 : Char), q = p1 ++ [t2] ∧ is_eol t2) := by
  induction p with
  | nil => exact ⟨[], t, [], rfl, by simp, ht, Or.inl rfl⟩
  | cons c cs ih =>
    by_cases hc : is_eol c
    · exact ⟨[], c, cs ++ [t], rfl, by simp, hc, Or.inr ⟨cs, t, rfl, ht⟩⟩
    · obtain ⟨l1, t1, q, e, h1, h2, h3⟩ := ih
      refine ⟨c :: l1, t1, q, ?_, ?_, h2, h3⟩
      · rw [List.cons_append, e, List.cons_append]
      · intro d hd
        rcases List.mem_cons.mp hd with rfl | hd
        · exact hc
        · exact h1 d hd

theorem parse_loop_bad_line (line : List Char) (hl : ∀ c ∈ line, ¬ is_eol c) (hne : line ≠ [])
    (hbad : ∀ cmds, parse_line (c_str line) cmds = .error fault.exit_failure) :
    ∀ (fuel : Nat) (pre post : List Char) (cmds : List command_t),
      (pre = [] ∨ ∃ (p : List Char) (t : Char), pre = p ++ [t] ∧ is_eol t) →
      (post = [] ∨ ∃ (t : Char) (q : List Char), post = t :: q ∧ is_eol t) →
      (pre ++ line ++ post).length < fuel →
      parse_loop fuel (pre ++ line ++ post) cmds = some (.error fault.exit_failure) := by
  intro fuel
  induction fuel with
  | zero => intro pre post cmds _ _ h; omega
  | succ fuel ih =>
    intro pre post cmds hpre hpost hlen
    rcases hpre with rfl | ⟨p, t, rfl, ht⟩
    · rcases hpost with rfl | ⟨t, q, rfl, ht⟩
      · simp only [List.nil_append, List.append_nil]
        exact parse_loop_last_error _ _ _ _ hl hne (hbad cmds)
      · simp only [List.nil_append]
        exact parse_loop_line_error _ _ _ _ _ _ hl ht (hbad cmds)
    · obtain ⟨l1, t1, q, e, h1, h2, h3⟩ := first_line_split p t ht
      rw [e] at hlen ⊢
      have e2 : l1 ++ t1 :: q ++ line ++ post = l1 ++ t1 :: (q ++ line ++ post) := by simp
      rw [e2] at hlen ⊢
      cases h : parse_line (c_str l1) cmds with
      | error f =>
        rw [parse_loop_line_error _ _ _ _ _ f h1 h2 h, parse_line_exit _ _ _ h]
      | ok c1 =>
        rw [parse_loop_line_ok _ _ _ _ _ c1 h1 h2 h]
        apply ih q post c1 h3 hpost
        simp only [List.length_append, List.length_cons] at hlen ⊢
        omega

theorem read_line_length (s : List Char) : (read_line s).2.length ≤ s.length - 1 := by
  induction s with
  | nil => simp [read_line]
  | cons c cs ih =>
    simp only [read_line]
    split
    · simp
    · simp only [List.length_cons, Nat.add_sub_cancel]
      omega

/-- The bound on the iterations of `parse` is never reached: with more fuel
than characters in the stream the loop ends with a result. -/
theorem parse_loop_fuel (fuel : Nat) : ∀ (stream : List Char) (cmds : List command_t),
    stream.length < fuel → parse_loop fuel stream cmds ≠ none := by
  induction fuel with
  | zero => intro stream cmds h; omega
  | succ fuel ih =>
    intro stream cmds h
    cases stream with
    | nil => simp [parse_loop, _getline]
    | cons c cs =>
      simp only [parse_loop, _getline]
      split
      · simp
      · apply ih
        have := read_line_length (c :: cs)
        simp only [List.length_cons, Nat.add_sub_cancel] at this h
        omega

theorem parse_terminates (input : List Char) : parse input ≠ none :=
  parse_loop_fuel _ input [] (Nat.lt_succ_self _)

theorem parse_loop_exit (fuel : Nat) : ∀ (stream : List Char) (cmds : List command_t) (f : fault),
    parse_loop fuel stream cmds = some (.error f) → f = fault.exit_failure := by
  induction fuel with
  | zero => intro stream cmds f h; cases h
  | succ fuel ih =>
    intro stream cmds f h
    simp only [parse_loop] at h
    split at h
    · cases h
    · split at h
      · rename_i hf
        cases h
        exact parse_line_exit _ _ _ hf
      · exact ih _ _ _ h

/-! ## The parser: well-formed `PLACE` lines -/

theorem isdigit_not_eol (c : Char) (h : isdigit c = true) : ¬ is_eol c := by
  rintro (rfl | rfl) <;> revert h <;> decide

theorem isdigit_ne_NUL (c : Char) (h : isdigit c = true) : c ≠ NUL := by
  rintro rfl; revert h; decide

theorem isspace_ne_NUL (c : Char) (h : isspace c = true) : c ≠ NUL := by
  rintro rfl; revert h; decide

theorem heading_str_not_eol (h : direction) : ∀ c ∈ heading_str h, ¬ is_eol c := by
  unfold is_eol
  cases h <;> decide

theorem heading_str_NUL (h : direction) : NUL ∉ heading_str h := by
  cases h <;> decide

theorem sign_cases (sign : List Char) (h : sign = [] ∨ sign = ['+'] ∨ sign = ['-']) :
    (∀ c ∈ sign, ¬ is_eol c) ∧ NUL ∉ sign := by
  unfold is_eol
  rcases h with rfl | rfl | rfl <;> decide

theorem number_text_NUL (nx : List Char) (h : is_number_text nx) : NUL ∉ nx := by
  obtain ⟨ws, sign, ds, rfl, hws, hsign, -, hd⟩ := h
  simp only [List.mem_append, not_or]
  exact ⟨⟨fun hc => isspace_ne_NUL _ (hws _ hc) rfl, (sign_cases sign hsign).2⟩,
    fun hc => isdigit_ne_NUL _ (hd _ hc) rfl⟩

theorem number_text_head (nx : List Char) (h : is_number_text nx) :
    ∃ (c : Char) (rest : List Char), nx = c :: rest ∧
      (isspace c = true ∨ c = '+' ∨ c = '-' ∨ isdigit c = true) := by
  obtain ⟨ws, sign, ds, rfl, hws, hsign, hds, hd⟩ := h
  obtain ⟨d, ds', rfl⟩ := List.exists_cons_of_ne_nil hds
  cases ws with
  | cons w ws' => exact ⟨w, _, rfl, Or.inl (hws w (by simp))⟩
  | nil =>
    rcases hsign with rfl | rfl | rfl
    · exact ⟨d, _, rfl, Or.inr (Or.inr (Or.inr (hd d (by simp))))⟩
    · exact ⟨'+', _, rfl, Or.inr (Or.inl rfl)⟩
    · exact ⟨'-', _, rfl, Or.inr (Or.inr (Or.inl rfl))⟩

theorem digits_value_zeros (k : Nat) (ds : List Char) :
    digits_value (List.replicate k '0' ++ ds) = digits_value ds := by
  induction k with
  | zero => simp
  | succ k ih =>
    simp only [digits_value, List.replicate_succ, List.cons_append, List.foldl_cons] at ih ⊢
    exact ih

/-- The digits of a numeral: `k` zeros and then the decimal digits of `n`. -/
theorem numeral_digits (k n : Nat) :
    List.replicate k '0' ++ decimal n ≠ [] ∧
    (∀ c ∈ List.replicate k '0' ++ decimal n, isdigit c = true) ∧
    digits_value (List.replicate k '0' ++ decimal n) = n := by
  refine ⟨?_, ?_, ?_⟩
  · simp [decimal_ne_nil]
  · intro c hc
    rcases List.mem_append.mp hc with h | h
    · rw [List.eq_of_mem_replicate h]; rfl
    · exact decimal_isdigit n c h
  · rw [digits_value_zeros, digits_value_decimal]

theorem numeral_is_number_text (sign : List Char) (hs : sign = [] ∨ sign = ['+'] ∨ sign = ['-'])
    (k n : Nat) : is_number_text (sign ++ List.replicate k '0' ++ decimal n) := by
  obtain ⟨h1, h2, -⟩ := numeral_digits k n
  exact ⟨[], sign, List.replicate k '0' ++ decimal n, by simp, by simp, hs, h1, h2⟩

theorem numeral_not_eol (sign : List Char) (hs : sign = [] ∨ sign = ['+'] ∨ sign = ['-'])
    (k n : Nat) : ∀ c ∈ sign ++ List.replicate k '0' ++ decimal n, ¬ is_eol c := by
  obtain ⟨-, h2, -⟩ := numeral_digits k n
  intro c hc
  rw [List.append_assoc] at hc
  rcases List.mem_append.mp hc with h | h
  · exact (sign_cases sign hs).1 c h
  · exact isdigit_not_eol c (h2 c h)

theorem parse_number_numeral (sign : List Char)
    (hs : sign = [] ∨ sign = ['+'] ∨ sign = ['-']) (k n : Nat) (hn : n < 2 ^ 63)
    (rest : List Char) (hr : stops_number rest) :
    parse_number (sign ++ List.replicate k '0' ++ decimal n ++ rest) = .ok (n, rest) := by
  obtain ⟨h1, h2, h3⟩ := numeral_digits k n
  have := parse_number_number [] sign (List.replicate k '0' ++ decimal n) rest (by simp) hs h1 h2
    hr (by rw [h3]; exact hn)
  rw [h3] at this
  simpa using this

theorem plain_text_append (a b : List Char) (ha : plain_text a) (hb : plain_text b) :
    plain_text (a ++ b) := by
  intro c hc
  rcases List.mem_append.mp hc with h | h
  · exact ha c h
  · exact hb c h

theorem plain_text_c_str (l : List Char) (h : plain_text l) : c_str l = l :=
  c_str_self l (fun hc => (h _ hc).2 rfl)

theorem plain_text_not_eol (l : List Char) (h : plain_text l) : ∀ c ∈ l, ¬ is_eol c :=
  fun c hc => (h c hc).1

theorem plain_text_numeral (sign : List Char) (hs : sign = [] ∨ sign = ['+'] ∨ sign = ['-'])
    (k n : Nat) : plain_text (sign ++ List.replicate k '0' ++ decimal n) :=
  fun c hc => ⟨numeral_not_eol sign hs k n c hc,
    fun e => number_text_NUL _ (numeral_is_number_text sign hs k n) (e ▸ hc)⟩

theorem plain_text_heading_str (h : direction) : plain_text (heading_str h) :=
  fun c hc => ⟨heading_str_not_eol h c hc, fun e => heading_str_NUL h (e ▸ hc)⟩

theorem plain_text_comma : plain_text [','] := by
  unfold plain_text is_eol; decide

theorem plain_text_place : plain_text "PLACE ".toList := by
  unfold plain_text is_eol; decide

theorem parse_place_numerals (sx sy : List Char)
    (hsx : sx = [] ∨ sx = ['+'] ∨ sx = ['-']) (hsy : sy = [] ∨ sy = ['+'] ∨ sy = ['-'])
    (kx ky x y : Nat) (hx : x < 2 ^ 63) (hy : y < 2 ^ 63) (tail : List Char) :
    parse_place ("PLACE ".toList ++ ((sx ++ List.replicate kx '0' ++ decimal x) ++ [',']
        ++ (sy ++ List.replicate ky '0' ++ decimal y) ++ [','] ++ tail))
      = (match parse_direction tail with
         | .error f => .error f
         | .ok (heading, _) =>
           .ok { type := CMD_PLACE, x := x % 2 ^ 32, y := y % 2 ^ 32, heading := heading }) := by
  obtain ⟨vx, vy, e1, e2, e3⟩ := parse_place_operands _ _ tail
    (numeral_is_number_text sx hsx kx x) (numeral_is_number_text sy hsy ky y)
  have f1 := parse_number_numeral sx hsx kx x hx
    ([','] ++ (sy ++ List.replicate ky '0' ++ decimal y) ++ [','] ++ tail)
    (stops_number_comma _)
  have f2 := parse_number_numeral sy hsy ky y hy ([','] ++ tail) (stops_number_comma _)
  simp only [List.append_assoc] at e1 e2 f1 f2
  rw [f1] at e1
  rw [f2] at e2
  simp only [Except.ok.injEq, Prod.mk.injEq, and_true] at e1 e2
  subst e1 e2
  exact e3

/-- Claim C1: for `x` and `y` below `2 ^ 32`, each written in decimal (any
number of leading zeros) after an optional sign `+` or `-`, and every heading
`h`, `parse` on the one line `PLACE <x>,<y>,<name of h>`, with or without the
newline that ends it, returns exactly one command: `CMD_PLACE` with
`x`, `y` (the magnitudes) and `h`. -/
theorem parse_place_line (x y : Nat) (hx : x < 2 ^ 32) (hy : y < 2 ^ 32) (sx sy : List Char)
    (hsx : sx = [] ∨ sx = ['+'] ∨ sx = ['-']) (hsy : sy = [] ∨ sy = ['+'] ∨ sy = ['-'])
    (kx ky : Nat) (h : direction) :
    parse ("PLACE ".toList ++ sx ++ List.replicate kx '0' ++ decimal x ++ [','] ++ sy
        ++ List.replicate ky '0' ++ decimal y ++ [','] ++ heading_str h)
      = some (.ok [{ type := CMD_PLACE, x := x, y := y, heading := h }]) ∧
    parse ("PLACE ".toList ++ sx ++ List.replicate kx '0' ++ decimal x ++ [','] ++ sy
        ++ List.replicate ky '0' ++ decimal y ++ [','] ++ heading_str h ++ ['\n'])
      = some (.ok [{ type := CMD_PLACE, x := x, y := y, heading := h }]) := by
  have e : "PLACE ".toList ++ sx ++ List.replicate kx '0' ++ decimal x ++ [','] ++ sy
        ++ List.replicate ky '0' ++ decimal y ++ [','] ++ heading_str h
      = "PLACE ".toList ++ ((sx ++ List.replicate kx '0' ++ decimal x) ++ [',']
        ++ (sy ++ List.replicate ky '0' ++ decimal y) ++ [','] ++ heading_str h) := by
    simp only [List.append_assoc]
  rw [e]
  have hx63 : x < 2 ^ 63 := lt_trans hx (by norm_num)
  have hy63 : y < 2 ^ 63 := lt_trans hy (by norm_num)
  have hp := parse_place_numerals sx sy hsx hsy kx ky x y hx63 hy63 (heading_str h)
  rw [parse_direction_heading_str] at hp
  simp only [Nat.mod_eq_of_lt hx, Nat.mod_eq_of_lt hy] at hp
  have hline := parse_line_place _ [] _ hp
  have hplain : plain_text ("PLACE ".toList ++ ((sx ++ List.replicate kx '0' ++ decimal x)
        ++ [','] ++ (sy ++ List.replicate ky '0' ++ decimal y) ++ [','] ++ heading_str h)) :=
    plain_text_append _ _ plain_text_place
      (plain_text_append _ _
        (plain_text_append _ _
          (plain_text_append _ _
            (plain_text_append _ _ (plain_text_numeral sx hsx kx x) plain_text_comma)
            (plain_text_numeral sy hsy ky y))
          plain_text_comma)
        (plain_text_heading_str h))
  have hne : "PLACE ".toList ++ ((sx ++ List.replicate kx '0' ++ decimal x) ++ [',']
        ++ (sy ++ List.replicate ky '0' ++ decimal y) ++ [','] ++ heading_str h) ≠ [] := by
    rw [verb_place]; simp
  have h1 := parse_one_line _ (plain_text_not_eol _ hplain) hne
  rw [plain_text_c_str _ hplain, hline] at h1
  exact h1

theorem parse_place_line_witness :
    ((0 : Nat) < 2 ^ 32 ∧ (3 : Nat) < 2 ^ 32) ∧
    parse "PLACE 0,-03,NORTH".toList
      = some (.ok [{ type := CMD_PLACE, x := 0, y := 3, heading := DIR_NORTH }]) ∧
    parse "PLACE 0,-03,NORTH\n".toList
      = some (.ok [{ type := CMD_PLACE, x := 0, y := 3, heading := DIR_NORTH }]) := by
  have h := parse_place_line 0 3 (by norm_num) (by norm_num) [] ['-'] (Or.inl rfl)
    (Or.inr (Or.inr rfl)) 0 1 DIR_NORTH
  exact ⟨⟨by norm_num, by norm_num⟩, h⟩

/-! ## The parser: malformed lines and trailing text -/

theorem parse_line_malformed_place (r : List Char) (hbad : ¬ is_place_operands (c_str r))
    (cmds : List command_t) :
    parse_line (c_str ("PLACE ".toList ++ r)) cmds = .error fault.exit_failure := by
  rw [c_str_place]
  cases hp : parse_place ("PLACE ".toList ++ c_str r) with
  | error f =>
    rw [parse_place_exit _ _ hp] at hp
    exact parse_line_place_error _ _ _ hp
  | ok cmd =>
    exfalso
    apply hbad
    have := parse_place_ok _ _ hp
    rw [verb_place] at this
    simpa using this

theorem main_of_parse_error (input : List Char) (f : fault)
    (h : parse input = some (.error f)) : main input = some ([], some f) := by
  simp [main, h]

/-- Claim C9: a stream that contains a line starting with `PLACE ` whose
remainder (as a C string) is not of the form number, comma, number, comma,
heading name (the number as `strtoll` reads it: optional white space, optional
sign, digits; the heading name one of the four, with nothing after it) makes
`parse` end with `exit(EXIT_FAILURE)`, whatever lines come before or after:
no command sequence is returned, and `main` writes nothing to `stdout`. -/
theorem place_malformed (pre r post : List Char)
    (hpre : pre = [] ∨ ∃ (p : List Char) (t : Char), pre = p ++ [t] ∧ is_eol t)
    (hpost : post = [] ∨ ∃ (t : Char) (q : List Char), post = t :: q ∧ is_eol t)
    (hr : ∀ c ∈ r, ¬ is_eol c) (hbad : ¬ is_place_operands (c_str r)) :
    parse (pre ++ ("PLACE ".toList ++ r) ++ post) = some (.error fault.exit_failure) ∧
    main (pre ++ ("PLACE ".toList ++ r) ++ post) = some ([], some fault.exit_failure) := by
  have hl : ∀ c ∈ "PLACE ".toList ++ r, ¬ is_eol c := by
    intro c hc
    rcases List.mem_append.mp hc with h | h
    · exact (plain_text_place c h).1
    · exact hr c h
  have hne : "PLACE ".toList ++ r ≠ [] := by rw [verb_place]; simp
  have hp : parse (pre ++ ("PLACE ".toList ++ r) ++ post) = some (.error fault.exit_failure) :=
    parse_loop_bad_line _ hl hne (parse_line_malformed_place r hbad) _ pre post [] hpre hpost
      (Nat.lt_succ_self _)
  exact ⟨hp, main_of_parse_error _ _ hp⟩

theorem not_place_operands_abc : ¬ is_place_operands (c_str "abc,1,NORTH".toList) := by
  rintro ⟨nx, ny, h, hnx, -, e⟩
  obtain ⟨c, rest, rfl, hc⟩ := number_text_head nx hnx
  have e1 : c_str "abc,1,NORTH".toList = 'a' :: "bc,1,NORTH".toList := by decide
  rw [e1] at e
  simp only [List.cons_append, List.cons.injEq] at e
  obtain ⟨rfl, -⟩ := e
  revert hc
  decide

theorem place_malformed_witness :
    ¬ is_place_operands (c_str "abc,1,NORTH".toList) ∧
    parse ("PLACE 0,0,NORTH\nREPORT\n".toList ++ ("PLACE ".toList ++ "abc,1,NORTH".toList)
        ++ "\nREPORT\n".toList) = some (.error fault.exit_failure) ∧
    main ("PLACE 0,0,NORTH\nREPORT\n".toList ++ ("PLACE ".toList ++ "abc,1,NORTH".toList)
        ++ "\nREPORT\n".toList) = some ([], some fault.exit_failure) :=
  ⟨not_place_operands_abc,
    place_malformed "PLACE 0,0,NORTH\nREPORT\n".toList "abc,1,NORTH".toList
      "\nREPORT\n".toList
      (Or.inr ⟨"PLACE 0,0,NORTH\nREPORT".toList, '\n', by decide, Or.inl rfl⟩)
      (Or.inr ⟨'\n', "REPORT\n".toList, by decide, Or.inl rfl⟩)
      (by unfold is_eol; decide) not_place_operands_abc⟩

theorem plain_text_number (nx : List Char) (h : is_number_text nx)
    (hn : ∀ c ∈ nx, ¬ is_eol c) : plain_text nx :=
  fun c hc => ⟨hn c hc, fun e => number_text_NUL nx h (e ▸ hc)⟩

theorem stops_number_c_str (g : List Char) (h : stops_number g) : stops_number (c_str g) := by
  cases g with
  | nil => exact h
  | cons c cs =>
    unfold c_str
    by_cases hc : c = NUL
    · simp [hc, stops_number]
    · intro d hd
      simp only [List.takeWhile_cons, bne_iff_ne, ne_eq, hc, not_false_eq_true, decide_True,
        if_true, List.head?_cons, Option.mem_def, Option.some.injEq] at hd
      exact h d (by simp [hd])

theorem parse_select_numeral (n : Nat) (hn : n < 2 ^ 63) (g : List Char) (hg : stops_number g) :
    parse_select ("ROBOT ".toList ++ (decimal n ++ g)) = .ok { type := CMD_SELECT, select := n } := by
  have h := parse_number_numeral [] (Or.inl rfl) 0 n hn g hg
  simp only [List.replicate_zero, List.nil_append] at h
  have e : List.drop 6 ("ROBOT ".toList ++ (decimal n ++ g)) = decimal n ++ g := by
    rw [verb_robot]; simp
  unfold parse_select
  rw [e, h]

theorem parse_verb_line (verb g : List Char) (cmd : command_t) (hv : plain_text verb)
    (hne : verb ≠ []) (hg : ∀ c ∈ g, ¬ is_eol c)
    (h : ∀ t : List Char, parse_line (verb ++ t) [] = .ok [cmd]) :
    parse (verb ++ g) = some (.ok [cmd]) := by
  have hl : ∀ c ∈ verb ++ g, ¬ is_eol c := by
    intro c hc
    rcases List.mem_append.mp hc with h1 | h1
    · exact (hv c h1).1
    · exact hg c h1
  have h1 := (parse_one_line (verb ++ g) hl (by simp [hne])).1
  rw [c_str_append verb g (fun hc => (hv _ hc).2 rfl), h] at h1
  exact h1

/-- Claim C10, refuted as stated: the lines `MOVEX`, `REPORT now` and
`ROBOT 1 junk` are parsed without error and each yields its command. -/
theorem trailing_garbage_accepted :
    parse "MOVEX".toList = some (.ok [{ type := CMD_MOVE }]) ∧
    parse "REPORT now".toList = some (.ok [{ type := CMD_REPORT }]) ∧
    parse "ROBOT 1 junk".toList = some (.ok [{ type := CMD_SELECT, select := 1 }]) :=
  ⟨rfl, rfl, rfl⟩

/-- Claim C10, amended: on a line made of a command and trailing text `g`
(any characters but line terminators), a well-formed `PLACE X,Y,HEADING`
followed by at least one character (`g` not empty as a C string) makes `parse`
end with `exit(EXIT_FAILURE)`; `MOVE`, `LEFT`, `RIGHT` and `REPORT` followed by
any `g` are parsed to their command; `ROBOT N` followed by a `g` that does
not start with a digit is parsed to `CMD_SELECT` with index `N`. -/
theorem trailing_garbage (g : List Char) (hg : ∀ c ∈ g, ¬ is_eol c) :
    (∀ r : List Char, is_place_operands r → (∀ c ∈ r, ¬ is_eol c) → c_str g ≠ [] →
      parse ("PLACE ".toList ++ r ++ g) = some (.error fault.exit_failure)) ∧
    parse ("MOVE".toList ++ g) = some (.ok [{ type := CMD_MOVE }]) ∧
    parse ("LEFT".toList ++ g) = some (.ok [{ type := CMD_LEFT }]) ∧
    parse ("RIGHT".toList ++ g) = some (.ok [{ type := CMD_RIGHT }]) ∧
    parse ("REPORT".toList ++ g) = some (.ok [{ type := CMD_REPORT }]) ∧
    (∀ n : Nat, n < 2 ^ 63 → stops_number g →
      parse ("ROBOT ".toList ++ decimal n ++ g)
        = some (.ok [{ type := CMD_SELECT, select := n }])) := by
  refine ⟨?_, ?_, ?_, ?_, ?_, ?_⟩
  · rintro r ⟨nx, ny, h, hnx, hny, rfl⟩ hr hgne
    have hrp : plain_text (nx ++ [','] ++ ny ++ [','] ++ heading_str h) :=
      plain_text_append _ _
        (plain_text_append _ _
          (plain_text_append _ _
            (plain_text_append _ _
              (plain_text_number nx hnx (fun c hc => hr c (by simp [hc])))
              plain_text_comma)
            (plain_text_number ny hny (fun c hc => hr c (by simp [hc]))))
          plain_text_comma)
        (plain_text_heading_str h)
    have hl : ∀ c ∈ "PLACE ".toList ++ (nx ++ [','] ++ ny ++ [','] ++ heading_str h) ++ g,
        ¬ is_eol c := by
      intro c hc
      rcases List.mem_append.mp hc with h1 | h1
      · exact (plain_text_append _ _ plain_text_place hrp c h1).1
      · exact hg c h1
    have h1 := (parse_one_line _ hl (by rw [verb_place]; simp)).1
    rw [h1, c_str_append _ g (fun hc => (plain_text_append _ _ plain_text_place hrp _ hc).2 rfl)]
    obtain ⟨vx, vy, -, -, e3⟩ := parse_place_operands nx ny (heading_str h ++ c_str g) hnx hny
    rw [parse_direction_garbage h _ hgne] at e3
    have e4 : "PLACE ".toList ++ (nx ++ [','] ++ ny ++ [','] ++ heading_str h) ++ c_str g
        = "PLACE ".toList ++ (nx ++ [','] ++ ny ++ [','] ++ (heading_str h ++ c_str g)) := by
      simp only [List.append_assoc]
    rw [e4, parse_line_place_error _ _ _ e3]
  · exact parse_verb_line _ g _ (by unfold plain_text is_eol; decide) (by decide) hg
      (fun t => parse_line_move t [])
  · exact parse_verb_line _ g _ (by unfold plain_text is_eol; decide) (by decide) hg
      (fun t => parse_line_left t [])
  · exact parse_verb_line _ g _ (by unfold plain_text is_eol; decide) (by decide) hg
      (fun t => parse_line_right t [])
  · exact parse_verb_line _ g _ (by unfold plain_text is_eol; decide) (by decide) hg
      (fun t => parse_line_report t [])
  · intro n hn hs
    have hd : plain_text (decimal n) := by
      have := plain_text_numeral [] (Or.inl rfl) 0 n
      simpa using this
    have hv : plain_text ("ROBOT ".toList ++ decimal n) :=
      plain_text_append _ _ (by unfold plain_text is_eol; decide) hd
    have hl : ∀ c ∈ "ROBOT ".toList ++ decimal n ++ g, ¬ is_eol c := by
      intro c hc
      rcases List.mem_append.mp hc with h1 | h1
      · exact (hv c h1).1
      · exact hg c h1
    have h1 := (parse_one_line _ hl (by rw [verb_robot]; simp)).1
    rw [h1, c_str_append _ g (fun hc => (hv _ hc).2 rfl), List.append_assoc]
    rw [parse_line_robot _ [] _ (parse_select_numeral n hn (c_str g) (stops_number_c_str g hs))]
    rfl

theorem is_number_text_zero : is_number_text ['0'] :=
  ⟨[], [], ['0'], rfl, by simp, Or.inl rfl, by simp, by decide⟩

theorem trailing_garbage_witness :
    (∀ c ∈ "X".toList, ¬ is_eol c) ∧
    parse "PLACE 0,0,NORTHX".toList = some (.error fault.exit_failure) ∧
    parse "LEFTX".toList = some (.ok [{ type := CMD_LEFT }]) := by
  have hg : ∀ c ∈ "X".toList, ¬ is_eol c := by unfold is_eol; decide
  have h := trailing_garbage "X".toList hg
  exact ⟨hg,
    h.1 "0,0,NORTH".toList ⟨['0'], ['0'], DIR_NORTH, is_number_text_zero, is_number_text_zero, rfl⟩
      (by unfold is_eol; decide) (by decide),
    h.2.2.1⟩

/-! ## The execution engine: assertions, frame and invariant -/

/-- Claim C13, evaluated on the code: sixteen `PLACE` commands run from the
initial state end without a fault with `active = MAX_ROBOT_COUNT`; on that
state a further `CMD_PLACE` passes the assertion `active <= MAX_ROBOT_COUNT`
and reaches the write to `state.robots[16]`, outside the array, so a run of
seventeen `PLACE` commands is not stopped by the assertion. -/
theorem place_at_capacity :
    (exec (List.replicate 16 { type := CMD_PLACE, x := 0, y := 0, heading := DIR_NORTH })
      state0 []).stopped = none ∧
    (exec (List.replicate 16 { type := CMD_PLACE, x := 0, y := 0, heading := DIR_NORTH })
      state0 []).state.active = MAX_ROBOT_COUNT ∧
    exec_cmd
      (exec (List.replicate 16 { type := CMD_PLACE, x := 0, y := 0, heading := DIR_NORTH })
        state0 []).state [] { type := CMD_PLACE, x := 0, y := 0, heading := DIR_NORTH }
      = .error fault.out_of_bounds ∧
    (exec (List.replicate 17 { type := CMD_PLACE, x := 0, y := 0, heading := DIR_NORTH })
      state0 []).stopped ≠ some fault.assert_fail := by
  refine ⟨by decide, by decide, ?_, by decide⟩
  rfl

theorem exec_cmd_select_assert (s : state_t) (out : List Char) (cmd : command_t)
    (hcmd : cmd.type = CMD_SELECT) (hsel : s.selected < MAX_ROBOT_COUNT)
    (h : cmd.select = 0 ∨ MAX_ROBOT_COUNT < cmd.select) :
    exec_cmd s out cmd = .error fault.assert_fail := by
  have hn : ¬ (cmd.select ≤ MAX_ROBOT_COUNT ∧ cmd.select ≠ 0) := by
    rintro ⟨h1, h2⟩
    rcases h with h | h
    · exact h2 h
    · omega
  simp [exec_cmd, hsel, hcmd, hn]

theorem exec_cmd_select_ok (s : state_t) (out : List Char) (cmd : command_t)
    (hcmd : cmd.type = CMD_SELECT) (hsel : s.selected < MAX_ROBOT_COUNT)
    (h1 : 1 ≤ cmd.select) (h2 : cmd.select ≤ MAX_ROBOT_COUNT) :
    ∃ s1 : state_t, exec_cmd s out cmd = .ok (s1, out) := by
  have ha : cmd.select ≤ MAX_ROBOT_COUNT ∧ cmd.select ≠ 0 := ⟨h2, by omega⟩
  have h3 : cmd.select - 1 < MAX_ROBOT_COUNT := by
    unfold MAX_ROBOT_COUNT at h2 ⊢; omega
  by_cases hb : cmd.select > s.active
  · exact ⟨s, by simp [exec_cmd, hsel, hcmd, ha, hb]⟩
  · by_cases hp : (s.robots ⟨cmd.select - 1, h3⟩).is_placed = false
    · exact ⟨s, by simp [exec_cmd, hsel, hcmd, ha, hb, h3, hp]⟩
    · exact ⟨{ s with selected := cmd.select - 1 },
        by simp [exec_cmd, hsel, hcmd, ha, hb, h3, hp]⟩

/-- Claim C14: on a state whose selection is inside the array, a `CMD_SELECT`
with index `0` or with index above `MAX_ROBOT_COUNT` fails the assertion of
`exec` (the run is aborted), and with an index in `1..MAX_ROBOT_COUNT` it ends
without a fault, with nothing written. -/
theorem select_assertion (s : state_t) (out : List Char) (cmd : command_t)
    (hcmd : cmd.type = CMD_SELECT) (hsel : s.selected < MAX_ROBOT_COUNT) :
    ((cmd.select = 0 ∨ MAX_ROBOT_COUNT < cmd.select) →
      exec_cmd s out cmd = .error fault.assert_fail) ∧
    ((1 ≤ cmd.select ∧ cmd.select ≤ MAX_ROBOT_COUNT) →
      ∃ s1 : state_t, exec_cmd s out cmd = .ok (s1, out)) :=
  ⟨exec_cmd_select_assert s out cmd hcmd hsel,
    fun h => exec_cmd_select_ok s out cmd hcmd hsel h.1 h.2⟩

theorem select_assertion_witness :
    (one_robot 0 0 DIR_NORTH).selected < MAX_ROBOT_COUNT ∧
    exec_cmd (one_robot 0 0 DIR_NORTH) [] { type := CMD_SELECT, select := 0 }
      = .error fault.assert_fail ∧
    exec_cmd (one_robot 0 0 DIR_NORTH) [] { type := CMD_SELECT, select := 17 }
      = .error fault.assert_fail ∧
    ∃ s1 : state_t,
      exec_cmd (one_robot 0 0 DIR_NORTH) [] { type := CMD_SELECT, select := 16 }
        = .ok (s1, []) := by
  have h0 := select_assertion (one_robot 0 0 DIR_NORTH) [] { type := CMD_SELECT, select := 0 }
    rfl (by decide)
  have h17 := select_assertion (one_robot 0 0 DIR_NORTH) [] { type := CMD_SELECT, select := 17 }
    rfl (by decide)
  have h16 := select_assertion (one_robot 0 0 DIR_NORTH) [] { type := CMD_SELECT, select := 16 }
    rfl (by decide)
  exact ⟨by decide, h0.1 (Or.inl rfl), h17.1 (Or.inr (by decide)), h16.2 ⟨by decide, by decide⟩⟩

theorem move_frame (rb : robot) :
    (move rb).heading = rb.heading ∧ (move rb).is_placed = rb.is_placed := by
  obtain ⟨x, y, h, p⟩ := rb
  cases h <;> simp [move]

theorem turn_left_frame (rb : robot) :
    (turn_left rb).x = rb.x ∧ (turn_left rb).y = rb.y ∧
      (turn_left rb).is_placed = rb.is_placed := by
  rw [turn_left_eq]; simp

theorem turn_right_frame (rb : robot) :
    (turn_right rb).x = rb.x ∧ (turn_right rb).y = rb.y ∧
      (turn_right rb).is_placed = rb.is_placed := by
  rw [turn_right_eq]; simp

theorem update_other (f : Fin MAX_ROBOT_COUNT → robot) (n : Nat) (h : n < MAX_ROBOT_COUNT)
    (v : robot) (i : Fin MAX_ROBOT_COUNT) (hi : i.val ≠ n) :
    Function.update f ⟨n, h⟩ v i = f i := by
  have : i ≠ ⟨n, h⟩ := fun e => hi (by rw [e])
  rw [Function.update_noteq this]

/-- Claim C20: on a state whose selection is inside the array, `CMD_MOVE`,
`CMD_LEFT`, `CMD_RIGHT` and `CMD_REPORT` end without a fault and leave
`active`, `selected` and every slot other than the selected one unchanged;
`CMD_LEFT` and `CMD_RIGHT` also leave `x`, `y` and `is_placed` of the selected
robot unchanged, and `CMD_REPORT` leaves the whole state unchanged. -/
theorem exec_frame (s : state_t) (out : List Char) (cmd : command_t)
    (hsel : s.selected < MAX_ROBOT_COUNT)
    (hcmd : cmd.type = CMD_MOVE ∨ cmd.type = CMD_LEFT ∨ cmd.type = CMD_RIGHT ∨
      cmd.type = CMD_REPORT) :
    ∃ (s1 : state_t) (out1 : List Char), exec_cmd s out cmd = .ok (s1, out1) ∧
      s1.active = s.active ∧ s1.selected = s.selected ∧
      (∀ i : Fin MAX_ROBOT_COUNT, i.val ≠ s.selected → s1.robots i = s.robots i) ∧
      (cmd.type = CMD_LEFT ∨ cmd.type = CMD_RIGHT →
        (s1.robots ⟨s.selected, hsel⟩).x = (s.robots ⟨s.selected, hsel⟩).x ∧
        (s1.robots ⟨s.selected, hsel⟩).y = (s.robots ⟨s.selected, hsel⟩).y ∧
        (s1.robots ⟨s.selected, hsel⟩).is_placed = (s.robots ⟨s.selected, hsel⟩).is_placed) ∧
      (cmd.type = CMD_REPORT → s1 = s) := by
  by_cases hp : (s.robots ⟨s.selected, hsel⟩).is_placed = true
  · rcases hcmd with h | h | h | h
    · refine ⟨{ s with
          robots := Function.update s.robots ⟨s.selected, hsel⟩
            (move (s.robots ⟨s.selected, hsel⟩)) }, out,
        by simp [exec_cmd, hsel, hp, h], rfl, rfl, ?_, ?_, ?_⟩
      · intro i hi; exact update_other _ _ _ _ i hi
      · intro h'; rw [h] at h'; exact absurd h' (by decide)
      · intro h'; rw [h] at h'; exact absurd h' (by decide)
    · refine ⟨_, out, exec_cmd_left s out cmd h hsel hp, rfl, rfl, ?_, ?_, ?_⟩
      · intro i hi; exact update_other _ _ _ _ i hi
      · intro _; simp only [Function.update_same]; exact turn_left_frame _
      · intro h'; rw [h] at h'; exact absurd h' (by decide)
    · refine ⟨_, out, exec_cmd_right s out cmd h hsel hp, rfl, rfl, ?_, ?_, ?_⟩
      · intro i hi; exact update_other _ _ _ _ i hi
      · intro _; simp only [Function.update_same]; exact turn_right_frame _
      · intro h'; rw [h] at h'; exact absurd h' (by decide)
    · exact ⟨s, out ++ report_text s.selected s.active (s.robots ⟨s.selected, hsel⟩),
        by simp [exec_cmd, hsel, hp, h], rfl, rfl, fun _ _ => rfl,
        fun _ => ⟨rfl, rfl, rfl⟩, fun _ => rfl⟩
  · have hp' : (s.robots ⟨s.selected, hsel⟩).is_placed = false := by simpa using hp
    have h1 : cmd.type ≠ CMD_PLACE := by rcases hcmd with h | h | h | h <;> rw [h] <;> decide
    have h2 : cmd.type ≠ CMD_SELECT := by rcases hcmd with h | h | h | h <;> rw [h] <;> decide
    exact ⟨s, out, exec_cmd_unplaced s out cmd hsel hp' h1 h2, rfl, rfl, fun _ _ => rfl,
      fun _ => ⟨rfl, rfl, rfl⟩, fun _ => rfl⟩

theorem exec_frame_witness :
    (one_robot 1 2 DIR_EAST).selected < MAX_ROBOT_COUNT ∧
    ∃ (s1 : state_t) (out1 : List Char),
      exec_cmd (one_robot 1 2 DIR_EAST) [] { type := CMD_REPORT } = .ok (s1, out1) ∧
      s1 = one_robot 1 2 DIR_EAST := by
  obtain ⟨s1, out1, h1, -, -, -, -, h2⟩ :=
    exec_frame (one_robot 1 2 DIR_EAST) [] { type := CMD_REPORT } (by decide)
      (Or.inr (Or.inr (Or.inr rfl)))
  exact ⟨by decide, s1, out1, h1, h2 rfl⟩

theorem well_formed_state0 : well_formed state0 := by
  refine ⟨by decide, by decide, fun i => ?_, fun h => ?_⟩
  · simp [state0]
  · simp [state0] at h

/-- Replacing the selected robot by one with the same `is_placed` keeps the
invariant. -/
theorem well_formed_update (s : state_t) (hs : well_formed s) (v : robot)
    (hv : v.is_placed = (s.robots ⟨s.selected, hs.2.1⟩).is_placed) :
    well_formed { s with robots := Function.update s.robots ⟨s.selected, hs.2.1⟩ v } := by
  obtain ⟨h1, h2, h3, h4⟩ := hs
  refine ⟨h1, h2, fun i => ?_, h4⟩
  by_cases hi : i = ⟨s.selected, h2⟩
  · subst hi
    simp only [Function.update_same, hv]
    exact h3 _
  · simp only [Function.update_noteq hi]
    exact h3 i

theorem well_formed_step (s s1 : state_t) (out out1 : List Char) (cmd : command_t)
    (hs : well_formed s) (h : exec_cmd s out cmd = .ok (s1, out1)) :
    well_formed s1 ∧ s1.active = s.active + (if cmd.type = CMD_PLACE then 1 else 0) := by
  have hs' := hs
  obtain ⟨h1, hsel, h3, h4⟩ := hs
  unfold exec_cmd at h
  simp only [hsel, dite_true] at h
  split at h
  · rename_i hskip
    cases h
    have : cmd.type ≠ CMD_PLACE := by
      intro e; simp [e] at hskip
    simp [this, hs']
  · split at h
    · rename_i hty
      by_cases hact : s.active < MAX_ROBOT_COUNT
      · simp only [h1, hact, if_true, dite_true, Except.ok.injEq, Prod.mk.injEq] at h
        obtain ⟨rfl, -⟩ := h
        refine ⟨⟨hact, hact, fun i => ?_, fun _ => Nat.lt_succ_self _⟩, by simp [hty]⟩
        by_cases hi : i = ⟨s.active, hact⟩
        · subst hi; simp
        · simp only [Function.update_noteq hi]
          rw [h3 i]
          have : i.val ≠ s.active := fun e => hi (Fin.ext e)
          omega
      · simp only [h1, hact, if_true, dite_false] at h
        cases h
    · cases h
      rename_i hty
      exact ⟨well_formed_update s hs' _ (move_frame _).2, by simp [hty]⟩
    · cases h
      rename_i hty
      exact ⟨well_formed_update s hs' _ (turn_left_frame _).2.2, by simp [hty]⟩
    · cases h
      rename_i hty
      exact ⟨well_formed_update s hs' _ (turn_right_frame _).2.2, by simp [hty]⟩
    · cases h
      rename_i hty
      exact ⟨hs', by simp [hty]⟩
    · rename_i hty
      split at h
      · split at h
        · cases h; exact ⟨hs', by simp [hty]⟩
        · split at h
          · split at h
            · cases h; exact ⟨hs', by simp [hty]⟩
            · cases h
              rename_i hle hidx hpl
              refine ⟨⟨h1, hidx, h3, fun _ => ?_⟩, by simp [hty]⟩
              have := (h3 ⟨cmd.select - 1, hidx⟩).mp (by simpa using hpl)
              exact this
          · cases h
      · cases h
    · cases h

theorem exec_cmd_no_fault (s : state_t) (out : List Char) (cmd : command_t)
    (hs : well_formed s) (hp : cmd.type = CMD_PLACE → s.active < MAX_ROBOT_COUNT)
    (hsl : cmd.type = CMD_SELECT → 1 ≤ cmd.select ∧ cmd.select ≤ MAX_ROBOT_COUNT)
    (hn : cmd.type ≠ CMD_NONE) :
    ∃ (s1 : state_t) (out1 : List Char), exec_cmd s out cmd = .ok (s1, out1) := by
  obtain ⟨h1, hsel, h3, h4⟩ := hs
  by_cases hty : cmd.type = CMD_SELECT
  · obtain ⟨s1, e⟩ := exec_cmd_select_ok s out cmd hty hsel (hsl hty).1 (hsl hty).2
    exact ⟨s1, out, e⟩
  · unfold exec_cmd
    simp only [hsel, dite_true]
    split
    · exact ⟨_, _, rfl⟩
    · split
      · rename_i hpl
        simp only [h1, hp hpl, if_true, dite_true]
        exact ⟨_, _, rfl⟩
      · exact ⟨_, _, rfl⟩
      · exact ⟨_, _, rfl⟩
      · exact ⟨_, _, rfl⟩
      · exact ⟨_, _, rfl⟩
      · rename_i h; exact absurd h hty
      · rename_i h; exact absurd h hn

theorem count_place_cons (c : command_t) (cs : List command_t) :
    count_place (c :: cs) = (if c.type = CMD_PLACE then 1 else 0) + count_place cs := by
  unfold count_place
  by_cases h : c.type = CMD_PLACE
  · simp [List.filter_cons, h]; omega
  · simp [List.filter_cons, h]

theorem well_formed_exec (cmds : List command_t)
    (hsl : ∀ c ∈ cmds, c.type = CMD_SELECT → 1 ≤ c.select ∧ c.select ≤ MAX_ROBOT_COUNT) :
    ∀ (s : state_t) (out : List Char), well_formed s →
      s.active + count_place cmds ≤ MAX_ROBOT_COUNT →
      well_formed (exec cmds s out).state ∧
      ((∀ c ∈ cmds, c.type ≠ CMD_NONE) →
        (exec cmds s out).stopped = none ∧
        (exec cmds s out).state.active = s.active + count_place cmds) := by
  induction cmds with
  | nil => intro s out hs _; exact ⟨hs, fun _ => ⟨rfl, rfl⟩⟩
  | cons c cs ih =>
    intro s out hs hc
    rw [count_place_cons] at hc
    have hsl' : ∀ d ∈ cs, d.type = CMD_SELECT → 1 ≤ d.select ∧ d.select ≤ MAX_ROBOT_COUNT :=
      fun d hd => hsl d (List.mem_cons_of_mem _ hd)
    rw [exec]
    cases he : exec_cmd s out c with
    | error f =>
      refine ⟨hs, fun hn => ?_⟩
      exfalso
      obtain ⟨s1, out1, e⟩ := exec_cmd_no_fault s out c hs
        (fun h => by rw [if_pos h] at hc; omega) (hsl c (List.mem_cons_self _ _))
        (hn c (List.mem_cons_self _ _))
      rw [e] at he
      cases he
    | ok r =>
      obtain ⟨s1, out1⟩ := r
      obtain ⟨hw, ha⟩ := well_formed_step s s1 out out1 c hs he
      obtain ⟨i1, i2⟩ := ih hsl' s1 out1 hw (by rw [ha]; omega)
      refine ⟨i1, fun hn => ?_⟩
      obtain ⟨j1, j2⟩ := i2 (fun d hd => hn d (List.mem_cons_of_mem _ hd))
      refine ⟨j1, ?_⟩
      simp only
      rw [j2, ha, count_place_cons]
      omega

/-- Claim C18: after any command sequence with at most `MAX_ROBOT_COUNT`
`CMD_PLACE` commands and every `CMD_SELECT` index in `1..MAX_ROBOT_COUNT`, run
by `exec` from the initial state, `active ≤ MAX_ROBOT_COUNT`, slot `i` is
placed exactly when `i < active`, and `selected < active` as soon as
`active > 0`. Hence a `CMD_SELECT` index `n` with `1 ≤ n ≤ active` always
names a placed robot, the selected robot is unplaced exactly when
`active = 0`, and a sequence without `CMD_NONE` ends without a fault. -/
theorem exec_invariant (cmds : List command_t) (hp : count_place cmds ≤ MAX_ROBOT_COUNT)
    (hsl : ∀ c ∈ cmds, c.type = CMD_SELECT → 1 ≤ c.select ∧ c.select ≤ MAX_ROBOT_COUNT) :
    (exec cmds state0 []).state.active ≤ MAX_ROBOT_COUNT ∧
    (∀ i : Fin MAX_ROBOT_COUNT,
      ((exec cmds state0 []).state.robots i).is_placed = true
        ↔ i.val < (exec cmds state0 []).state.active) ∧
    (0 < (exec cmds state0 []).state.active →
      (exec cmds state0 []).state.selected < (exec cmds state0 []).state.active) ∧
    (∀ n : Nat, 1 ≤ n → n ≤ (exec cmds state0 []).state.active →
      ∃ h : n - 1 < MAX_ROBOT_COUNT,
        ((exec cmds state0 []).state.robots ⟨n - 1, h⟩).is_placed = true) ∧
    (∃ h : (exec cmds state0 []).state.selected < MAX_ROBOT_COUNT,
      (((exec cmds state0 []).state.robots ⟨(exec cmds state0 []).state.selected, h⟩).is_placed
          = false ↔ (exec cmds state0 []).state.active = 0)) ∧
    ((∀ c ∈ cmds, c.type ≠ CMD_NONE) → (exec cmds state0 []).stopped = none) := by
  obtain ⟨⟨h1, h2, h3, h4⟩, h5⟩ := well_formed_exec cmds hsl state0 [] well_formed_state0
    (by simpa [state0] using hp)
  refine ⟨h1, h3, h4, ?_, ⟨h2, ?_⟩, fun hn => (h5 hn).1⟩
  · intro n hn1 hn2
    have h : n - 1 < MAX_ROBOT_COUNT := by omega
    exact ⟨h, (h3 ⟨n - 1, h⟩).mpr (by simp only; omega)⟩
  · constructor
    · intro hpl
      by_contra hne
      have := h4 (Nat.pos_of_ne_zero hne)
      have := (h3 ⟨_, h2⟩).mpr this
      rw [hpl] at this
      cases this
    · intro h0
      have : ¬ ((exec cmds state0 []).state.robots
          ⟨(exec cmds state0 []).state.selected, h2⟩).is_placed = true := by
        rw [h3]; simp only; omega
      simpa using this

theorem exec_invariant_witness :
    count_place [{ type := CMD_PLACE, x := 0, y := 0, heading := DIR_NORTH },
        { type := CMD_SELECT, select := 1 }, { type := CMD_MOVE }] ≤ MAX_ROBOT_COUNT ∧
    (exec [{ type := CMD_PLACE, x := 0, y := 0, heading := DIR_NORTH },
        { type := CMD_SELECT, select := 1 }, { type := CMD_MOVE }] state0 []).state.active
      ≤ MAX_ROBOT_COUNT ∧
    (exec [{ type := CMD_PLACE, x := 0, y := 0, heading := DIR_NORTH },
        { type := CMD_SELECT, select := 1 }, { type := CMD_MOVE }] state0 []).stopped = none := by
  have h := exec_invariant [{ type := CMD_PLACE, x := 0, y := 0, heading := DIR_NORTH },
    { type := CMD_SELECT, select := 1 }, { type := CMD_MOVE }] (by decide) (by decide)
  exact ⟨by decide, h.1, h.2.2.2.2.2 (by decide)⟩

/-! ## The parser: the stream as a list of lines -/

/-- The first line of a non-empty stream is the buffer `_getline` returns and
the other lines are the lines of the stream `_getline` leaves. -/
theorem lines_cons (c : Char) (cs : List Char) :
    lines (c :: cs) = (read_line (c :: cs)).1 :: lines (read_line (c :: cs)).2 := by
  induction cs generalizing c with
  | nil =>
    by_cases h : c = '\n' ∨ c = '\r'
    · simp [lines, read_line, h]
    · simp [lines, read_line, h]
  | cons d ds ih =>
    by_cases h : c = '\n' ∨ c = '\r'
    · simp only [lines, read_line, h, if_true]
    · rw [lines, read_line]
      simp only [h, if_false]
      rw [ih d]

theorem lines_getline (s l rest : List Char) (h : _getline s = some (l, rest)) :
    lines s = l :: lines rest := by
  cases s with
  | nil => cases h
  | cons c cs =>
    simp only [_getline, Option.some.injEq] at h
    rw [lines_cons, h]

theorem parse_loop_lines (fuel : Nat) : ∀ (s : List Char) (cmds : List command_t),
    s.length < fuel → parse_loop fuel s cmds = some (parse_lines (lines s) cmds) := by
  induction fuel with
  | zero => intro s cmds h; omega
  | succ fuel ih =>
    intro s cmds h
    cases s with
    | nil => rfl
    | cons c cs =>
      have hl := read_line_length (c :: cs)
      simp only [List.length_cons, Nat.add_sub_cancel] at hl h
      rw [lines_cons]
      simp only [parse_loop, _getline, parse_lines]
      cases parse_line (c_str (read_line (c :: cs)).1) cmds with
      | error f => rfl
      | ok c1 => exact ih _ _ (by omega)

theorem parse_eq_lines (input : List Char) :
    parse input = some (parse_lines (lines input) []) :=
  parse_loop_lines _ input [] (Nat.lt_succ_self _)

theorem lines_line_eol (l rest : List Char) (t : Char) (hl : ∀ c ∈ l, ¬ is_eol c)
    (ht : is_eol t) : lines (l ++ t :: rest) = l :: lines rest :=
  lines_getline _ _ _ (getline_eol l rest t hl ht)

theorem parse_line_append (l : List Char) (cmds r : List command_t)
    (h : parse_line l [] = .ok r) : parse_line l cmds = .ok (cmds ++ r) := by
  unfold parse_line at h ⊢
  split
  · rename_i h0
    simp only [h0, if_true] at h
    cases h; simp
  · rename_i h0
    simp only [h0, if_false] at h
    split
    · rename_i rl hrl
      rw [hrl] at h
      simp only at h
      split
      · rename_i cb hcb
        rw [hcb] at h
        simp only at h
        split
        · rename_i f hf
          rw [hf] at h
          cases h
        · rename_i cmd hc
          rw [hc] at h
          simp only [cmd_buf_push, Except.ok.injEq] at h ⊢
          rw [← h]; simp
      · rename_i hcb
        rw [hcb] at h
        simp only [cmd_buf_push, Except.ok.injEq] at h ⊢
        rw [← h]; simp
    · rename_i hrl
      rw [hrl] at h
      simp only at h
      split
      · rename_i f hf
        rw [hf] at h
        cases h
      · rename_i cmd hc
        rw [hc] at h
        simp only at h
        split
        · rename_i hne
          rw [if_pos hne] at h
          simp only [cmd_buf_push, Except.ok.injEq] at h ⊢
          rw [← h]; simp
        · rename_i hne
          rw [if_neg hne] at h
          simp only [Except.ok.injEq] at h ⊢
          rw [← h]; simp

theorem parse_lines_ok (ls : List (List Char)) (per : List (List command_t))
    (h : List.Forall₂ (fun l r => parse_line (c_str l) [] = .ok r) ls per) :
    ∀ cmds : List command_t, parse_lines ls cmds = .ok (cmds ++ per.flatten) := by
  induction h with
  | nil => intro cmds; simp [parse_lines]
  | cons hlr _ ih =>
    intro cmds
    simp only [parse_lines, parse_line_append _ cmds _ hlr, ih, List.flatten_cons,
      List.append_assoc]

/-! ## The parser: lines without a verb and the returned sequence -/
theorem find_rule_none (rs : List rule) (l : List Char) :
    find_rule rs l = none ↔ ∀ r ∈ rs, ¬ r.verb <+: l := by
  induction rs with
  | nil => simp [find_rule]
  | cons r rs ih =>
    simp only [find_rule, List.mem_cons, forall_eq_or_imp]
    by_cases h : r.verb.isPrefixOf l = true
    · have h' := List.isPrefixOf_iff_prefix.mp h
      simp [h, h']
    · have h' : ¬ r.verb <+: l := fun e => h (List.isPrefixOf_iff_prefix.mpr e)
      simp [h, h', ih]

theorem find_rule_some (r : rule) (hr : r ∈ parse_rules) (l : List Char) (h : r.verb <+: l) :
    find_rule parse_rules l = some r := by
  obtain ⟨t, rfl⟩ := h
  simp only [parse_rules, List.mem_cons, List.mem_singleton, List.not_mem_nil, or_false] at hr
  rcases hr with rfl | rfl | rfl | rfl | rfl | rfl <;>
    simp [find_rule, parse_rules, verb_place, verb_move, verb_left, verb_right, verb_report,
      verb_robot]

theorem parse_place_type (l : List Char) (cmd : command_t) (h : parse_place l = .ok cmd) :
    cmd.type = CMD_PLACE := by
  unfold parse_place at h
  repeat' split at h
  all_goals first
    | cases h; done
    | (cases h; rfl)

theorem parse_select_type (l : List Char) (cmd : command_t) (h : parse_select l = .ok cmd) :
    cmd.type = CMD_SELECT := by
  unfold parse_select at h
  split at h
  · cases h
  · cases h; rfl

theorem parse_line_rule (l : List Char) (r : rule) (hr : r ∈ parse_rules) (h : r.verb <+: l)
    (res : List command_t) (hp : parse_line l [] = .ok res) :
    ∃ c : command_t, res = [c] ∧ c.type = r.type := by
  have hf := find_rule_some r hr l h
  have hne : l ≠ [] := by
    rintro rfl
    have := List.prefix_nil.mp h
    simp only [parse_rules, List.mem_cons, List.mem_singleton, List.not_mem_nil, or_false] at hr
    rcases hr with rfl | rfl | rfl | rfl | rfl | rfl <;> simp at this
  unfold parse_line at hp
  simp only [hne, if_false, hf] at hp
  simp only [parse_rules, List.mem_cons, List.mem_singleton, List.not_mem_nil, or_false] at hr
  rcases hr with rfl | rfl | rfl | rfl | rfl | rfl
  · simp only at hp
    split at hp
    · cases hp
    · rename_i cmd hc
      simp only [cmd_buf_push, Except.ok.injEq] at hp
      exact ⟨cmd, by rw [← hp]; rfl, parse_place_type _ _ hc⟩
  · simp only [cmd_buf_push, Except.ok.injEq] at hp
    exact ⟨_, by rw [← hp]; rfl, rfl⟩
  · simp only [cmd_buf_push, Except.ok.injEq] at hp
    exact ⟨_, by rw [← hp]; rfl, rfl⟩
  · simp only [cmd_buf_push, Except.ok.injEq] at hp
    exact ⟨_, by rw [← hp]; rfl, rfl⟩
  · simp only [cmd_buf_push, Except.ok.injEq] at hp
    exact ⟨_, by rw [← hp]; rfl, rfl⟩
  · simp only at hp
    split at hp
    · cases hp
    · rename_i cmd hc
      simp only [cmd_buf_push, Except.ok.injEq] at hp
      exact ⟨cmd, by rw [← hp]; rfl, parse_select_type _ _ hc⟩

theorem skip_whitespace_nil (l : List Char) :
    skip_whitespace l = [] ↔ ∀ c ∈ l, c = ' ' ∨ c = '\t' ∨ c = '\r' ∨ c = '\n' := by
  unfold skip_whitespace
  rw [List.dropWhile_eq_nil_iff]
  simp only [Bool.or_eq_true, decide_eq_true_eq, or_assoc]

/-- A line that starts with no verb: `parse_unknown` decides. -/
theorem parse_line_unknown (l : List Char) (hv : ∀ r ∈ parse_rules, ¬ r.verb <+: l)
    (cmds : List command_t) :
    ((∀ c ∈ l, c = ' ' ∨ c = '\t' ∨ c = '\r' ∨ c = '\n') → parse_line l cmds = .ok cmds) ∧
    (¬ (∀ c ∈ l, c = ' ' ∨ c = '\t' ∨ c = '\r' ∨ c = '\n') →
      parse_line l cmds = .error fault.exit_failure) := by
  have hf := (find_rule_none parse_rules l).mpr hv
  constructor
  · intro hw
    by_cases h0 : l = []
    · simp [parse_line, h0]
    · have := (skip_whitespace_nil l).mpr hw
      simp [parse_line, h0, hf, parse_unknown, this]
  · intro hw
    have h0 : l ≠ [] := by rintro rfl; exact hw (by simp)
    have : skip_whitespace l ≠ [] := fun e => hw ((skip_whitespace_nil l).mp e)
    simp [parse_line, h0, hf, parse_unknown, this]

theorem parse_line_error (l : List Char) (cmds : List command_t) (f : fault)
    (h : parse_line l [] = .error f) : parse_line l cmds = .error f := by
  unfold parse_line at h ⊢
  split
  · rename_i h0
    simp only [h0, if_true] at h
    cases h
  · rename_i h0
    simp only [h0, if_false] at h
    split
    · rename_i rl hrl
      rw [hrl] at h
      simp only at h
      split
      · rename_i cb hcb
        rw [hcb] at h
        simp only at h
        split
        · rename_i f1 hf
          rw [hf] at h
          exact h
        · rename_i cmd hc
          rw [hc] at h
          cases h
      · rename_i hcb
        rw [hcb] at h
        cases h
    · rename_i hrl
      rw [hrl] at h
      simp only at h
      split
      · rename_i f1 hf
        rw [hf] at h
        exact h
      · rename_i cmd hc
        rw [hc] at h
        simp only at h
        split at h <;> cases h

theorem rule_type_ne_none (r : rule) (hr : r ∈ parse_rules) : r.type ≠ CMD_NONE := by
  simp only [parse_rules, List.mem_cons, List.mem_singleton, List.not_mem_nil, or_false] at hr
  rcases hr with rfl | rfl | rfl | rfl | rfl | rfl <;> decide

theorem parse_line_no_none (l : List Char) (cmds res : List command_t)
    (h : parse_line l cmds = .ok res) (hc : ∀ c ∈ cmds, c.type ≠ CMD_NONE) :
    ∀ c ∈ res, c.type ≠ CMD_NONE := by
  cases h0 : parse_line l [] with
  | error f =>
    rw [parse_line_error l cmds f h0] at h
    cases h
  | ok r0 =>
    rw [parse_line_append l cmds r0 h0] at h
    cases h
    intro c hmem
    rcases List.mem_append.mp hmem with hm | hm
    · exact hc c hm
    · by_cases hv : ∀ r ∈ parse_rules, ¬ r.verb <+: l
      · obtain ⟨h1, h2⟩ := parse_line_unknown l hv []
        by_cases hw : ∀ c ∈ l, c = ' ' ∨ c = '\t' ∨ c = '\r' ∨ c = '\n'
        · rw [h1 hw] at h0
          cases h0
          cases hm
        · rw [h2 hw] at h0
          cases h0
      · simp only [not_forall, not_not] at hv
        obtain ⟨r, hr, hp⟩ := hv
        obtain ⟨c1, rfl, hty⟩ := parse_line_rule l r hr hp r0 h0
        rw [List.mem_singleton] at hm
        rw [hm, hty]
        exact rule_type_ne_none r hr

theorem parse_lines_no_none (ls : List (List Char)) :
    ∀ (cmds res : List command_t), parse_lines ls cmds = .ok res →
      (∀ c ∈ cmds, c.type ≠ CMD_NONE) → ∀ c ∈ res, c.type ≠ CMD_NONE := by
  induction ls with
  | nil =>
    intro cmds res h hc
    simp only [parse_lines, Except.ok.injEq] at h
    rw [← h]; exact hc
  | cons l ls ih =>
    intro cmds res h hc
    simp only [parse_lines] at h
    split at h
    · cases h
    · rename_i c1 h1
      exact ih c1 res h (parse_line_no_none _ cmds c1 h1 hc)

theorem parse_no_none (input : List Char) (cmds : List command_t)
    (h : parse input = some (.ok cmds)) : ∀ c ∈ cmds, c.type ≠ CMD_NONE := by
  rw [parse_eq_lines] at h
  simp only [Option.some.injEq] at h
  exact parse_lines_no_none _ [] cmds h (by simp)

/-- Claim C11: for a line (the C string in the buffer `_getline` returns)
that starts with none of the verbs of `parse_rules`, `parse` succeeds exactly
when every character of the line is a space, tab, CR or LF (the empty line
included); the line then adds no command to the buffer, and any other such
line makes `parse` end with `exit(EXIT_FAILURE)`. No sequence that `parse`
returns contains a `CMD_NONE` command. -/
theorem unknown_line (buf : List Char) (hb : ∀ c ∈ buf, ¬ is_eol c)
    (hv : ∀ r ∈ parse_rules, ¬ r.verb <+: c_str buf) :
    ((∃ cmds, parse buf = some (.ok cmds)) ↔
      ∀ c ∈ c_str buf, c = ' ' ∨ c = '\t' ∨ c = '\r' ∨ c = '\n') ∧
    ((∀ c ∈ c_str buf, c = ' ' ∨ c = '\t' ∨ c = '\r' ∨ c = '\n') →
      parse buf = some (.ok []) ∧ ∀ cmds, parse_line (c_str buf) cmds = .ok cmds) ∧
    (¬ (∀ c ∈ c_str buf, c = ' ' ∨ c = '\t' ∨ c = '\r' ∨ c = '\n') →
      parse buf = some (.error fault.exit_failure)) ∧
    (∀ (input : List Char) (cmds : List command_t), parse input = some (.ok cmds) →
      ∀ c ∈ cmds, c.type ≠ CMD_NONE) := by
  have hp : parse buf = some (parse_line (c_str buf) []) := by
    by_cases h0 : buf = []
    · subst h0; rfl
    · exact (parse_one_line buf hb h0).1
  obtain ⟨h1, h2⟩ := parse_line_unknown (c_str buf) hv []
  refine ⟨⟨?_, fun hw => ⟨[], by rw [hp, h1 hw]⟩⟩, fun hw => ⟨by rw [hp, h1 hw], ?_⟩,
    fun hw => by rw [hp, h2 hw], parse_no_none⟩
  · rintro ⟨cmds, hc⟩
    by_contra hw
    rw [hp, h2 hw] at hc
    cases hc
  · intro cmds
    exact (parse_line_unknown (c_str buf) hv cmds).1 hw

theorem unknown_line_witness :
    (∀ c ∈ " \t ".toList, ¬ is_eol c) ∧
    (∀ r ∈ parse_rules, ¬ r.verb <+: c_str " \t ".toList) ∧
    parse " \t ".toList = some (.ok []) := by
  have hb : ∀ c ∈ " \t ".toList, ¬ is_eol c := by unfold is_eol; decide
  have hv : ∀ r ∈ parse_rules, ¬ r.verb <+: c_str " \t ".toList :=
    (find_rule_none parse_rules _).mp rfl
  have h := unknown_line " \t ".toList hb hv
  exact ⟨hb, hv, (h.2.1 (by decide)).1⟩

theorem any_verb_iff (l : List Char) :
    parse_rules.any (fun r => r.verb.isPrefixOf l) = true ↔ ∃ r ∈ parse_rules, r.verb <+: l := by
  simp only [List.any_eq_true, List.isPrefixOf_iff_prefix]

theorem per_line_results (ls : List (List Char))
    (hok : ∀ l ∈ ls, ∃ r, parse_line (c_str l) [] = .ok r) :
    ∃ per : List (List command_t),
      List.Forall₂ (fun l r => parse_line (c_str l) [] = .ok r ∧
        (∀ rule ∈ parse_rules, rule.verb <+: c_str l → ∃ c, r = [c] ∧ c.type = rule.type) ∧
        ((∀ rule ∈ parse_rules, ¬ rule.verb <+: c_str l) → r = [])) ls per ∧
      per.flatten.length
        = (ls.filter (fun l => parse_rules.any (fun rule => rule.verb.isPrefixOf (c_str l)))).length := by
  induction ls with
  | nil => exact ⟨[], List.Forall₂.nil, rfl⟩
  | cons l ls ih =>
    obtain ⟨per, hper, hlen⟩ := ih (fun m hm => hok m (List.mem_cons_of_mem _ hm))
    obtain ⟨r, hr⟩ := hok l (List.mem_cons_self _ _)
    have hverb : ∀ rule ∈ parse_rules, rule.verb <+: c_str l →
        ∃ c, r = [c] ∧ c.type = rule.type :=
      fun rule hrule hp => parse_line_rule _ rule hrule hp r hr
    have hnone : (∀ rule ∈ parse_rules, ¬ rule.verb <+: c_str l) → r = [] := by
      intro hv
      obtain ⟨h1, h2⟩ := parse_line_unknown (c_str l) hv []
      by_cases hw : ∀ c ∈ c_str l, c = ' ' ∨ c = '\t' ∨ c = '\r' ∨ c = '\n'
      · rw [h1 hw] at hr; cases hr; rfl
      · rw [h2 hw] at hr; cases hr
    refine ⟨r :: per, List.Forall₂.cons ⟨hr, hverb, hnone⟩ hper, ?_⟩
    rw [List.flatten_cons, List.length_append, hlen, List.filter_cons]
    by_cases ha : parse_rules.any (fun rule => rule.verb.isPrefixOf (c_str l)) = true
    · obtain ⟨rule, hrule, hp⟩ := (any_verb_iff _).mp ha
      obtain ⟨c, rfl, -⟩ := hverb rule hrule hp
      simp [ha]; omega
    · have hv : ∀ rule ∈ parse_rules, ¬ rule.verb <+: c_str l :=
        fun rule hrule hp => ha ((any_verb_iff _).mpr ⟨rule, hrule, hp⟩)
      rw [hnone hv]
      simp [ha]

/-- Claim C16: when every line of the input parses without error, `parse`
returns the concatenation, in line order, of the per-line results; a line
that starts with a verb of `parse_rules` contributes exactly one command, of
the type of that rule, a line that starts with no verb (blank or white space
only) contributes none, and the length of the result is the number of lines
that start with a verb. -/
theorem parse_concat (input : List Char)
    (hok : ∀ l ∈ lines input, ∃ r, parse_line (c_str l) [] = .ok r) :
    ∃ per : List (List command_t),
      List.Forall₂ (fun l r => parse_line (c_str l) [] = .ok r ∧
        (∀ rule ∈ parse_rules, rule.verb <+: c_str l → ∃ c, r = [c] ∧ c.type = rule.type) ∧
        ((∀ rule ∈ parse_rules, ¬ rule.verb <+: c_str l) → r = [])) (lines input) per ∧
      parse input = some (.ok per.flatten) ∧
      per.flatten.length
        = ((lines input).filter
            (fun l => parse_rules.any (fun rule => rule.verb.isPrefixOf (c_str l)))).length := by
  obtain ⟨per, hper, hlen⟩ := per_line_results (lines input) hok
  refine ⟨per, hper, ?_, hlen⟩
  rw [parse_eq_lines, parse_lines_ok (lines input) per (hper.imp (fun _ _ h => h.1)) []]
  rfl

theorem parse_concat_witness :
    (∀ l ∈ lines "PLACE 0,0,NORTH\n\nMOVE\nREPORT\n".toList,
      ∃ r, parse_line (c_str l) [] = .ok r) ∧
    ∃ per : List (List command_t),
      List.Forall₂ (fun l r => parse_line (c_str l) [] = .ok r ∧
        (∀ rule ∈ parse_rules, rule.verb <+: c_str l → ∃ c, r = [c] ∧ c.type = rule.type) ∧
        ((∀ rule ∈ parse_rules, ¬ rule.verb <+: c_str l) → r = []))
        (lines "PLACE 0,0,NORTH\n\nMOVE\nREPORT\n".toList) per ∧
      parse "PLACE 0,0,NORTH\n\nMOVE\nREPORT\n".toList = some (.ok per.flatten) ∧
      per.flatten.length
        = ((lines "PLACE 0,0,NORTH\n\nMOVE\nREPORT\n".toList).filter
            (fun l => parse_rules.any (fun rule => rule.verb.isPrefixOf (c_str l)))).length := by
  have hl : lines "PLACE 0,0,NORTH\n\nMOVE\nREPORT\n".toList
      = ["PLACE 0,0,NORTH".toList, [], "MOVE".toList, "REPORT".toList] := by decide
  have hok : ∀ l ∈ lines "PLACE 0,0,NORTH\n\nMOVE\nREPORT\n".toList,
      ∃ r, parse_line (c_str l) [] = .ok r := by
    intro l hm
    rw [hl] at hm
    simp only [List.mem_cons, List.mem_singleton, List.not_mem_nil, or_false] at hm
    rcases hm with rfl | rfl | rfl | rfl
    · exact ⟨[{ type := CMD_PLACE }], rfl⟩
    · exact ⟨[], rfl⟩
    · exact ⟨[{ type := CMD_MOVE }], rfl⟩
    · exact ⟨[{ type := CMD_REPORT }], rfl⟩
  exact ⟨hok, parse_concat _ hok⟩

/-! ## The parser: `ROBOT` lines and the report text -/

/-- Claim C12, evaluated on the code: the line `ROBOT 0` is parsed without
error to a `CMD_SELECT` with index `0`; the run is only stopped later, by the
assertion of `exec`, after the commands before it have run and reported. -/
theorem robot_zero_parsed :
    parse "ROBOT 0\n".toList = some (.ok [{ type := CMD_SELECT, select := 0 }]) ∧
    main "ROBOT 0\n".toList = some ([], some fault.assert_fail) ∧
    main "PLACE 0,0,NORTH\nREPORT\nROBOT 0\n".toList
      = some ("Robot 1 of 1: 0,0,NORTH\n".toList, some fault.assert_fail) :=
  ⟨rfl, rfl, rfl⟩

theorem stops_number_nil : stops_number [] := by
  intro c hc; cases hc

/-- A well-formed `PLACE` line, as a C string and as a line of `parse`. -/
theorem parse_line_place_text (x y : Nat) (hx : x < 2 ^ 32) (hy : y < 2 ^ 32)
    (sx sy : List Char) (hsx : sx = [] ∨ sx = ['+'] ∨ sx = ['-'])
    (hsy : sy = [] ∨ sy = ['+'] ∨ sy = ['-']) (kx ky : Nat) (h : direction) :
    plain_text ("PLACE ".toList ++ ((sx ++ List.replicate kx '0' ++ decimal x) ++ [',']
        ++ (sy ++ List.replicate ky '0' ++ decimal y) ++ [','] ++ heading_str h)) ∧
    ∀ cmds : List command_t,
      parse_line ("PLACE ".toList ++ ((sx ++ List.replicate kx '0' ++ decimal x) ++ [',']
          ++ (sy ++ List.replicate ky '0' ++ decimal y) ++ [','] ++ heading_str h)) cmds
        = .ok (cmds ++ [{ type := CMD_PLACE, x := x, y := y, heading := h }]) := by
  have hx63 : x < 2 ^ 63 := lt_trans hx (by norm_num)
  have hy63 : y < 2 ^ 63 := lt_trans hy (by norm_num)
  have hp := parse_place_numerals sx sy hsx hsy kx ky x y hx63 hy63 (heading_str h)
  rw [parse_direction_heading_str] at hp
  simp only [Nat.mod_eq_of_lt hx, Nat.mod_eq_of_lt hy] at hp
  refine ⟨?_, fun cmds => parse_line_place _ cmds _ hp⟩
  exact plain_text_append _ _ plain_text_place
    (plain_text_append _ _
      (plain_text_append _ _
        (plain_text_append _ _
          (plain_text_append _ _ (plain_text_numeral sx hsx kx x) plain_text_comma)
          (plain_text_numeral sy hsy ky y))
        plain_text_comma)
      (plain_text_heading_str h))

theorem parse_line_robot_text (n : Nat) (hn : n < 2 ^ 63) (sign : List Char)
    (hs : sign = [] ∨ sign = ['+'] ∨ sign = ['-']) (k : Nat) :
    plain_text ("ROBOT ".toList ++ (sign ++ List.replicate k '0' ++ decimal n)) ∧
    ∀ cmds : List command_t,
      parse_line ("ROBOT ".toList ++ (sign ++ List.replicate k '0' ++ decimal n)) cmds
        = .ok (cmds ++ [{ type := CMD_SELECT, select := n }]) := by
  have h := parse_number_numeral sign hs k n hn [] stops_number_nil
  rw [List.append_nil] at h
  have e : List.drop 6 ("ROBOT ".toList ++ (sign ++ List.replicate k '0' ++ decimal n))
      = sign ++ List.replicate k '0' ++ decimal n := by
    rw [verb_robot]; simp
  have hp : parse_select ("ROBOT ".toList ++ (sign ++ List.replicate k '0' ++ decimal n))
      = .ok { type := CMD_SELECT, select := n } := by
    unfold parse_select
    rw [e, h]
  refine ⟨?_, fun cmds => parse_line_robot _ cmds _ hp⟩
  exact plain_text_append _ _ (by unfold plain_text is_eol; decide) (plain_text_numeral sign hs k n)

/-- Claim C15: for `n < 2 ^ 63` written in decimal (any number of leading
zeros) after an optional sign `+` or `-`, `parse` on the one line `ROBOT <n>`,
with or without the newline that ends it, returns exactly one command:
`CMD_SELECT` with index `n`, the magnitude. -/
theorem parse_robot_line (n : Nat) (hn : n < 2 ^ 63) (sign : List Char)
    (hs : sign = [] ∨ sign = ['+'] ∨ sign = ['-']) (k : Nat) :
    parse ("ROBOT ".toList ++ sign ++ List.replicate k '0' ++ decimal n)
      = some (.ok [{ type := CMD_SELECT, select := n }]) ∧
    parse ("ROBOT ".toList ++ sign ++ List.replicate k '0' ++ decimal n ++ ['\n'])
      = some (.ok [{ type := CMD_SELECT, select := n }]) := by
  have e : "ROBOT ".toList ++ sign ++ List.replicate k '0' ++ decimal n
      = "ROBOT ".toList ++ (sign ++ List.replicate k '0' ++ decimal n) := by
    simp only [List.append_assoc]
  rw [e]
  obtain ⟨hpl, hline⟩ := parse_line_robot_text n hn sign hs k
  have h1 := parse_one_line _ (plain_text_not_eol _ hpl) (by rw [verb_robot]; simp)
  rw [plain_text_c_str _ hpl, hline []] at h1
  exact h1

theorem parse_robot_line_witness :
    (2 : Nat) < 2 ^ 63 ∧
    parse "ROBOT -2".toList = some (.ok [{ type := CMD_SELECT, select := 2 }]) := by
  have h := parse_robot_line 2 (by norm_num) ['-'] (Or.inr (Or.inr rfl)) 0
  exact ⟨by norm_num, h.1⟩

theorem colon_not_mem_decimal (n : Nat) : ':' ∉ decimal n := by
  intro h
  have := decimal_isdigit n _ h
  revert this
  decide

/-- Claim C19: when the selected robot is placed at `x,y` (both below
`2 ^ 32`) with heading `h`, `CMD_REPORT` writes a line `<pre>: <t>` where
`pre` has no colon, and the text `t` after `": "`, with `PLACE ` in front,
is parsed to exactly the command `CMD_PLACE` with `x`, `y` and `h`; and
`parse_direction` on the name of `h` returns `h`. -/
theorem report_round_trip (s : state_t) (out : List Char) (hsel : s.selected < MAX_ROBOT_COUNT)
    (x y : Nat) (h : direction)
    (hrb : s.robots ⟨s.selected, hsel⟩ = { x := x, y := y, heading := h, is_placed := true })
    (hx : x < 2 ^ 32) (hy : y < 2 ^ 32) :
    ∃ pre t : List Char,
      exec_cmd s out { type := CMD_REPORT } = .ok (s, out ++ pre ++ ": ".toList ++ t ++ ['\n']) ∧
      ':' ∉ pre ∧
      parse ("PLACE ".toList ++ t)
        = some (.ok [{ type := CMD_PLACE, x := x, y := y, heading := h }]) ∧
      parse_direction (heading_str h) = .ok (h, []) := by
  refine ⟨"Robot ".toList ++ decimal (s.selected + 1) ++ " of ".toList ++ decimal s.active,
    decimal x ++ [','] ++ decimal y ++ [','] ++ heading_str h, ?_, ?_, ?_,
    parse_direction_heading_str h⟩
  · have hp : (s.robots ⟨s.selected, hsel⟩).is_placed = true := by rw [hrb]
    simp [exec_cmd, hsel, hp, report_text, hrb]
  · simp only [List.mem_append, not_or]
    exact ⟨⟨⟨by decide, colon_not_mem_decimal _⟩, by decide⟩, colon_not_mem_decimal _⟩
  · obtain ⟨hpl, hline⟩ := parse_line_place_text x y hx hy [] [] (Or.inl rfl) (Or.inl rfl) 0 0 h
    simp only [List.replicate_zero, List.nil_append, List.append_nil] at hpl hline
    have h1 := (parse_one_line _ (plain_text_not_eol _ hpl) (by rw [verb_place]; simp)).1
    rw [plain_text_c_str _ hpl, hline []] at h1
    exact h1

theorem report_round_trip_witness :
    (one_robot 1 2 DIR_EAST).robots ⟨0, by decide⟩
        = { x := 1, y := 2, heading := DIR_EAST, is_placed := true } ∧
    ∃ pre t : List Char,
      exec_cmd (one_robot 1 2 DIR_EAST) [] { type := CMD_REPORT }
        = .ok (one_robot 1 2 DIR_EAST, [] ++ pre ++ ": ".toList ++ t ++ ['\n']) ∧
      ':' ∉ pre ∧
      parse ("PLACE ".toList ++ t)
        = some (.ok [{ type := CMD_PLACE, x := 1, y := 2, heading := DIR_EAST }]) ∧
      parse_direction (heading_str DIR_EAST) = .ok (DIR_EAST, []) := by
  have h := report_round_trip (one_robot 1 2 DIR_EAST) [] (by decide) 1 2 DIR_EAST (by decide)
    (by norm_num) (by norm_num)
  exact ⟨by decide, h⟩

/-! ## Parsing and running `PLACE`, `ROBOT`, `REPORT` -/
theorem exec_append (a b : List command_t) : ∀ (s : state_t) (out : List Char),
    (exec a s out).stopped = none →
    exec (a ++ b) s out = exec b (exec a s out).state (exec a s out).out := by
  induction a with
  | nil => intro s out _; rfl
  | cons c cs ih =>
    intro s out h
    simp only [List.cons_append, exec] at h ⊢
    cases he : exec_cmd s out c with
    | error f => rw [he] at h; cases h
    | ok r =>
      obtain ⟨s1, out1⟩ := r
      rw [he] at h
      exact ih s1 out1 h

theorem exec_cmd_place (s : state_t) (out : List Char) (cmd : command_t)
    (hcmd : cmd.type = CMD_PLACE) (hsel : s.selected < MAX_ROBOT_COUNT)
    (hact : s.active < MAX_ROBOT_COUNT) :
    exec_cmd s out cmd
      = .ok ({ robots := Function.update s.robots ⟨s.active, hact⟩
                { x := cmd.x, y := cmd.y, heading := cmd.heading, is_placed := true },
               selected := s.active, active := s.active + 1 }, out) := by
  simp [exec_cmd, hsel, hcmd, hact, Nat.le_of_lt hact]

/-- The state after a run of `PLACE` commands. -/
theorem exec_places (ps : List place_args) : ∀ (s : state_t) (out : List Char),
    s.selected < MAX_ROBOT_COUNT → s.active + ps.length ≤ MAX_ROBOT_COUNT →
    (exec (ps.map place_args.cmd) s out).stopped = none ∧
    (exec (ps.map place_args.cmd) s out).out = out ∧
    (exec (ps.map place_args.cmd) s out).state.active = s.active + ps.length ∧
    (exec (ps.map place_args.cmd) s out).state.selected < MAX_ROBOT_COUNT ∧
    (∀ i : Fin MAX_ROBOT_COUNT, i.val < s.active →
      (exec (ps.map place_args.cmd) s out).state.robots i = s.robots i) ∧
    (∀ (j : Nat) (p : place_args), ps[j]? = some p →
      ∃ h : s.active + j < MAX_ROBOT_COUNT,
        (exec (ps.map place_args.cmd) s out).state.robots ⟨s.active + j, h⟩ = p.robot) := by
  induction ps with
  | nil =>
    intro s out hsel _
    exact ⟨rfl, rfl, rfl, hsel, fun _ _ => rfl, fun j p h => by simp at h⟩
  | cons q qs ih =>
    intro s out hsel hlen
    simp only [List.length_cons] at hlen
    have hact : s.active < MAX_ROBOT_COUNT := by omega
    simp only [List.map_cons, exec, exec_cmd_place s out q.cmd rfl hsel hact]
    obtain ⟨i1, i2, i3, i4, i5, i6⟩ := ih
      { robots := Function.update s.robots ⟨s.active, hact⟩
          { x := q.cmd.x, y := q.cmd.y, heading := q.cmd.heading, is_placed := true },
        selected := s.active, active := s.active + 1 } out hact (by simp only; omega)
    refine ⟨i1, i2, by rw [i3]; simp only [List.length_cons]; omega, i4, ?_, ?_⟩
    · intro i hi
      rw [i5 i (by simp only; omega)]
      exact update_other _ _ _ _ i (by omega)
    · intro j p hj
      cases j with
      | zero =>
        simp only [List.getElem?_cons_zero, Option.some.injEq] at hj
        subst hj
        have h5 := i5 ⟨s.active, hact⟩ (by simp only; omega)
        simp only [Function.update_same] at h5
        exact ⟨hact, h5⟩
      | succ j =>
        simp only [List.getElem?_cons_succ] at hj
        obtain ⟨h1, h2⟩ := i6 j p hj
        simp only at h1 h2
        have e : s.active + 1 + j = s.active + (j + 1) := by omega
        refine ⟨by omega, ?_⟩
        rw [← h2]
        congr 1
        exact Fin.ext e.symm

theorem place_args_text (p : place_args) (hv : p.valid) :
    plain_text p.text ∧ ∀ cmds : List command_t, parse_line p.text cmds = .ok (cmds ++ [p.cmd]) :=
  parse_line_place_text p.x p.y hv.2.2.1 hv.2.2.2 p.sx p.sy hv.1 hv.2.1 p.kx p.ky p.heading

theorem lines_places (ps : List place_args) (hv : ∀ p ∈ ps, p.valid) (tail : List Char) :
    lines ((ps.map (fun p => p.text ++ ['\n'])).flatten ++ tail)
      = ps.map place_args.text ++ lines tail := by
  induction ps with
  | nil => rfl
  | cons q qs ih =>
    have hq := (place_args_text q (hv q (List.mem_cons_self _ _))).1
    simp only [List.map_cons, List.flatten_cons, List.append_assoc, List.singleton_append,
      List.cons_append]
    rw [lines_line_eol _ _ '\n' (plain_text_not_eol _ hq) (Or.inl rfl), List.nil_append,
      ih (fun p hp => hv p (List.mem_cons_of_mem _ hp))]

theorem parse_lines_places (ps : List place_args) (hv : ∀ p ∈ ps, p.valid)
    (ls : List (List Char)) : ∀ cmds : List command_t,
    parse_lines (ps.map place_args.text ++ ls) cmds
      = parse_lines ls (cmds ++ ps.map place_args.cmd) := by
  induction ps with
  | nil => intro cmds; simp
  | cons q qs ih =>
    intro cmds
    obtain ⟨hq, hline⟩ := place_args_text q (hv q (List.mem_cons_self _ _))
    rw [List.map_cons, List.cons_append, parse_lines, plain_text_c_str _ hq, hline cmds]
    simp only
    rw [ih (fun p hp => hv p (List.mem_cons_of_mem _ hp)), List.map_cons, List.append_assoc]
    rfl

theorem exec_select_report (s : state_t) (out : List Char) (k : Nat)
    (hsel : s.selected < MAX_ROBOT_COUNT) (hk1 : 1 ≤ k) (hk : k ≤ s.active)
    (hidx : k - 1 < MAX_ROBOT_COUNT) (rb : robot) (hrb : s.robots ⟨k - 1, hidx⟩ = rb)
    (hpl : rb.is_placed = true) :
    exec [{ type := CMD_SELECT, select := k }, { type := CMD_REPORT }] s out
      = { state := { s with selected := k - 1 },
          out := out ++ report_text (k - 1) s.active rb,
          stopped := none } := by
  have h16 : k ≤ MAX_ROBOT_COUNT := by unfold MAX_ROBOT_COUNT at hidx ⊢; omega
  have h0 : k ≠ 0 := by omega
  have hgt : ¬ k > s.active := by omega
  have hpl' : (s.robots ⟨k - 1, hidx⟩).is_placed = true := by rw [hrb]; exact hpl
  have e1 : exec_cmd s out { type := CMD_SELECT, select := k }
      = .ok ({ s with selected := k - 1 }, out) := by
    simp [exec_cmd, hsel, h16, h0, hgt, hidx, hpl']
  have e2 : exec_cmd { s with selected := k - 1 } out { type := CMD_REPORT }
      = .ok ({ s with selected := k - 1 }, out ++ report_text (k - 1) s.active rb) := by
    simp [exec_cmd, hidx, hrb, hpl]
  simp only [exec, e1, e2]

/-- Claim C17: for at most `MAX_ROBOT_COUNT` valid `PLACE` lines, `k ≥ 1`
and `p` the `k`-th of them, `main` on those lines followed by `ROBOT k` and
`REPORT` ends without a fault and writes exactly one line:
`Robot k of n: x,y,HEADING` with `n` the number of `PLACE` lines and `x`,
`y`, `HEADING` those of `p`. -/
theorem place_select_report (ps : List place_args) (hv : ∀ p ∈ ps, p.valid)
    (hn : ps.length ≤ MAX_ROBOT_COUNT) (k : Nat) (hk1 : 1 ≤ k) (p : place_args)
    (hp : ps[k - 1]? = some p) :
    main ((ps.map (fun q => q.text ++ ['\n'])).flatten ++ ("ROBOT ".toList ++ decimal k)
        ++ "\nREPORT\n".toList)
      = some ("Robot ".toList ++ decimal k ++ " of ".toList ++ decimal ps.length
          ++ ": ".toList ++ decimal p.x ++ [','] ++ decimal p.y ++ [',']
          ++ heading_str p.heading ++ ['\n'], none) ∧
    '\n' ∉ "Robot ".toList ++ decimal k ++ " of ".toList ++ decimal ps.length
          ++ ": ".toList ++ decimal p.x ++ [','] ++ decimal p.y ++ [',']
          ++ heading_str p.heading := by
  have hklen : k - 1 < ps.length := (List.getElem?_eq_some_iff.mp hp).1
  have hk : k ≤ ps.length := by omega
  have hk63 : k < 2 ^ 63 := by
    have : k ≤ 16 := le_trans hk hn
    omega
  constructor
  · -- the parser
    obtain ⟨hrpl, hrline⟩ := parse_line_robot_text k hk63 [] (Or.inl rfl) 0
    simp only [List.replicate_zero, List.nil_append, List.append_nil] at hrpl hrline
    have hlines : lines ((ps.map (fun q => q.text ++ ['\n'])).flatten
          ++ ("ROBOT ".toList ++ decimal k) ++ "\nREPORT\n".toList)
        = ps.map place_args.text ++ ["ROBOT ".toList ++ decimal k, "REPORT".toList] := by
      rw [List.append_assoc, lines_places ps hv]
      have e : "\nREPORT\n".toList = '\n' :: "REPORT\n".toList := rfl
      rw [e, lines_line_eol _ _ '\n' (plain_text_not_eol _ hrpl) (Or.inl rfl)]
      rfl
    have hparse : parse ((ps.map (fun q => q.text ++ ['\n'])).flatten
          ++ ("ROBOT ".toList ++ decimal k) ++ "\nREPORT\n".toList)
        = some (.ok (ps.map place_args.cmd
            ++ [{ type := CMD_SELECT, select := k }, { type := CMD_REPORT }])) := by
      rw [parse_eq_lines, hlines, parse_lines_places ps hv]
      have hrep : c_str "REPORT".toList = "REPORT".toList ++ [] := by decide
      simp only [parse_lines, plain_text_c_str _ hrpl, hrline, hrep, parse_line_report]
      simp
    -- the engine
    obtain ⟨e1, e2, e3, e4, -, e6⟩ := exec_places ps state0 [] (by decide)
      (by simpa [state0] using hn)
    obtain ⟨hidx, hrob⟩ := e6 (k - 1) p hp
    have hact : (exec (ps.map place_args.cmd) state0 []).state.active = ps.length := by
      rw [e3]; simp [state0]
    have hidx' : k - 1 < MAX_ROBOT_COUNT := by simpa [state0] using hidx
    have hrob' : (exec (ps.map place_args.cmd) state0 []).state.robots ⟨k - 1, hidx'⟩
        = p.robot := by
      rw [← hrob]
      congr 1
      exact Fin.ext (by simp [state0])
    have hex := exec_select_report (exec (ps.map place_args.cmd) state0 []).state
      (exec (ps.map place_args.cmd) state0 []).out k e4 hk1 (by rw [hact]; exact hk) hidx'
      p.robot hrob' rfl
    have hk' : k - 1 + 1 = k := by omega
    rw [e2, hact] at hex
    simp only [main, hparse, exec_append _ _ state0 [] e1, e2, hex, report_text, hk',
      List.nil_append, place_args.robot]
  · simp only [List.mem_append, not_or]
    repeat' apply And.intro
    all_goals first
      | exact newline_not_mem_decimal _
      | exact newline_not_mem_heading_str _
      | decide

theorem place_select_report_witness :
    main "PLACE 0,0,NORTH\nPLACE 1,1,SOUTH\nROBOT 1\nREPORT\n".toList
      = some ("Robot 1 of 2: 0,0,NORTH\n".toList, none) := by
  have hv : ∀ p ∈ two_places, p.valid := by
    intro p hp
    simp only [two_places, List.mem_cons, List.mem_singleton, List.not_mem_nil, or_false] at hp
    rcases hp with rfl | rfl <;> exact ⟨Or.inl rfl, Or.inl rfl, by norm_num, by norm_num⟩
  have h := place_select_report two_places hv (by decide) 1 (by decide) _ rfl
  exact h.1

end RobotChallenge
